import Mathlib

/-!
The goutprofile tool: profile flattening and case matching.

A shallow embedding of `config.go` (the profile data model and its stack-based
iterator) and of `goutprofile.go` (`generateTestFunctions`, `checkTestCases`,
`ValidateDir`, `isValidProfile`), followed by theorems about them.

Modelling conventions.

* Go strings are Lean `String`s, Go slices are `List`s, the Go `int` cursor of the
  iterator is a `Nat` (it starts at 0 and only ever grows by one, up to a slice length).
* `stack.Interface` (package `gocontainer/stack`, a LIFO stack) is a `List` whose head is
  the top of the stack: `Push x` is `x :: s`, `Pop` removes the head.
* `lm.Interface` (package `gocontainer/map/linkedmap`) is used by `checkTestCases` only
  through `Size`, `ContainsKey` and its insertion-order key iterator; it is a `List String`
  of its keys in iteration order.
* `strings.ToLower` maps every rune through `unicode.ToLower`; the rune mapping is a
  parameter `lower : Char → Char` of the embedding, so every theorem holds for the real
  Unicode table. `Char.toLower` (ASCII) is used for concrete evaluations.
* The field `Type` of `testCase` and `testFunc` is named `Type_` (`Type` is reserved).
* Go errors are values of the type `Error`, one constructor per `errors.New` /
  `fmt.Errorf` call site, carrying the arguments of the format string.
* The two unbounded loops (`for !it.Stacks.IsEmpty()` in `next`, `for` in
  `generateTestFunctions`) take a fuel argument and return `none` when it runs out.
-/

namespace Goutprofile

/-! ## config.go -/

def typeTest : String := "test"
def prefixTest : String := "Test"
def typeBenchmark : String := "benchmark"
def prefixBenchmark : String := "Benchmark"

/-- The test case definition (`type testCase struct`). -/
structure testCase where
  Name : String
  Type_ : String
  Description : String
  deriving DecidableEq, Repr, Inhabited

/-- The test case category definition (`type testCategory struct`); it may have cases and
sub categories. -/
inductive testCategory where
  | mk (Name : String) (Description : String) (Cases : List testCase)
      (Categories : List testCategory) : testCategory

/-- Field `Cases` of a `testCategory`. -/
def testCategory.Cases : testCategory → List testCase
  | .mk _ _ cases _ => cases

/-- Field `Categories` of a `testCategory`. -/
def testCategory.Categories : testCategory → List testCategory
  | .mk _ _ _ categories => categories

/-- The unit test profile definition (`type utProfile struct`). -/
structure utProfile where
  Source : String
  Test : String
  Description : String
  Cases : List testCase
  Categories : List testCategory

/-- The generated test function (`type testFunc struct`). -/
structure testFunc where
  Name : String
  Type_ : String
  Description : String
  deriving DecidableEq, Repr, Inhabited

/-- The errors built by the embedded functions, one constructor per call site. -/
inductive Error where
  /-- The error `test cases not found` built by `errors.New` in `iterator.next`. -/
  | notFound : Error
  /-- The error `invalid test case type: %s` of `generateTestFunctions`, with `tc.Type`. -/
  | invalidType (typ : String) : Error
  /-- The error `there are %d cases in test file, but there are %d cases in ut profile` of
  `checkTestCases`, with `casesInFile.Size()` and `len(casesInProfile)`. -/
  | countMismatch (inFile : Nat) (inProfile : Nat) : Error
  /-- The error of `checkTestCases` for a profile case that does not exist in the test
  file; its one format argument is `funcInProfile.Name`. -/
  | missingCase (funcInProfile : String) : Error
  /-- The error of `checkTestCases` for a case in the test file that does not match the
  profile; its format arguments are `funcInFile`, `funcInProfile.Name` and `index`. -/
  | positionMismatch (funcInFile : String) (funcInProfile : String) (position : Nat) : Error
  deriving DecidableEq, Repr

/-- The iterator over all the test cases of a profile (`type iterator struct`).
`Stacks` has the top of the stack at its head. -/
structure iterator where
  Index : Nat
  Cases : List testCase
  Stacks : List testCategory

/-- The loop `for i := len(cs) - 1; i >= 0; i-- { stack.Push(cs[i]) }`: the last element is
pushed first, the first element ends on top. -/
def pushReversed (cs : List testCategory) (stack : List testCategory) : List testCategory :=
  cs.foldr (fun c s => c :: s) stack

/-- Go `func (utp *utProfile) iterator() *iterator`. -/
def utProfile.iterator (utp : utProfile) : iterator :=
  { Index := 0, Cases := utp.Cases, Stacks := pushReversed utp.Categories [] }

/-- The loop `for !it.Stacks.IsEmpty() { ... }` of `next`: pop a category, push its
sub categories in reverse, and stop at the first popped category that has cases.
`none` when the fuel runs out before the loop exits. -/
def popLoop : Nat → iterator → Option iterator
  | fuel, it =>
    match it.Stacks with
    | [] => some it
    | category :: rest =>
      match fuel with
      | 0 => none
      | fuel + 1 =>
        let stk := pushReversed category.Categories rest
        if category.Cases.length > 0 then
          some { Index := 0, Cases := category.Cases, Stacks := stk }
        else
          popLoop fuel { it with Stacks := stk }

/-- Go `func (it *iterator) next() (testCase, error)`: the result and the updated iterator;
`none` when the pop loop runs out of fuel. -/
def iterator.next (fuel : Nat) (it : iterator) : Option (Except Error testCase × iterator) :=
  let popped :=
    if it.Cases.length = 0 ∨ it.Index ≥ it.Cases.length then popLoop fuel it else some it
  match popped with
  | none => none
  | some it =>
    if h : it.Cases.length > 0 ∧ it.Index < it.Cases.length then
      some (.ok (it.Cases.get ⟨it.Index, h.2⟩), { it with Index := it.Index + 1 })
    else
      some (.error Error.notFound, it)

/-! ## goutprofile.go -/

/-- Go `strings.ToLower`, over the rune mapping `lower` (`unicode.ToLower`). -/
def ToLower (lower : Char → Char) (s : String) : String :=
  ⟨s.data.map lower⟩

/-- The `switch typeStr` of `generateTestFunctions`: the function generated for one test
case, or the invalid-type error of the `default` branch. -/
def switchType (lower : Char → Char) (tc : testCase) : Except Error testFunc :=
  let typeStr := ToLower lower tc.Type_
  if typeStr = typeTest ∨ typeStr = "" then
    .ok { Name := prefixTest ++ tc.Name, Type_ := typeTest, Description := tc.Description }
  else if typeStr = typeBenchmark then
    .ok { Name := prefixBenchmark ++ tc.Name, Type_ := typeBenchmark,
          Description := tc.Description }
  else
    .error (Error.invalidType tc.Type_)

/-- The `for` loop of `generateTestFunctions` from iterator state `it` with the functions
generated so far; the result is the pair `(generatedFuncs, err)` the function returns. -/
def generateLoop (lower : Char → Char) :
    Nat → iterator → List testFunc → Option (List testFunc × Option Error)
  | 0, _, _ => none
  | fuel + 1, it, generatedFuncs =>
    match it.next fuel with
    | none => none
    | some (.error _, _) => some (generatedFuncs, none)
    | some (.ok tc, it) =>
      match switchType lower tc with
      | .ok f => generateLoop lower fuel it (generatedFuncs ++ [f])
      | .error e => some (generatedFuncs, some e)

/-- Go `func generateTestFunctions(utp *utProfile) ([]*testFunc, error)`. -/
def generateTestFunctions (lower : Char → Char) (fuel : Nat) (utp : utProfile) :
    Option (List testFunc × Option Error) :=
  generateLoop lower fuel utp.iterator []

/-- What a run of `checkTestCases` ends with. -/
inductive CheckResult where
  /-- The function ran to `return nil`. -/
  | ok : CheckResult
  /-- The function returned the error `e`. -/
  | fail (e : Error) : CheckResult
  /-- The run-time failure of `casesInProfile[index]` with `index` out of range. -/
  | indexOutOfRange : CheckResult
  deriving DecidableEq, Repr

/-- The loop `for hasNext { ... }` of `checkTestCases`: `remaining` are the keys the map
iterator has still to yield, `index` the cursor into `casesInProfile`. -/
def checkLoop (casesInFile : List String) (casesInProfile : List testFunc) :
    List String → Nat → CheckResult
  | [], _ => .ok
  | funcInFile :: remaining, index =>
    match casesInProfile[index]? with
    | none => .indexOutOfRange
    | some funcInProfile =>
      let index := index + 1
      if ¬ funcInProfile.Name ∈ casesInFile then
        .fail (Error.missingCase funcInProfile.Name)
      else if funcInFile ≠ funcInProfile.Name then
        .fail (Error.positionMismatch funcInFile funcInProfile.Name index)
      else
        checkLoop casesInFile casesInProfile remaining index

/-- Go `func checkTestCases(casesInFile lm.Interface, casesInProfile []*testFunc) error`. -/
def checkTestCases (casesInFile : List String) (casesInProfile : List testFunc) : CheckResult :=
  if casesInFile.length ≠ casesInProfile.length then
    .fail (Error.countMismatch casesInFile.length casesInProfile.length)
  else
    checkLoop casesInFile casesInProfile casesInFile 0

/-! ## The sequence an iterator yields -/

/-- The test cases returned by successive calls of `it.next()`, up to its first error: the
loop `for { tc, err := it.next(); if err != nil { break }; ... }` of
`generateTestFunctions` with the body reduced to collecting `tc`. -/
def drain : Nat → iterator → Option (List testCase)
  | 0, _ => none
  | fuel + 1, it =>
    match it.next fuel with
    | none => none
    | some (.error _, _) => some []
    | some (.ok tc, it) => (drain fuel it).map (tc :: ·)

/-! ## The recursive flattening of the specification -/

mutual
/-- The recursive flattening of one category: its own cases, then its sub categories. -/
def flatCategory : testCategory → List testCase
  | .mk _ _ cases categories => cases ++ flatCategories categories
/-- The recursive flattening of a list of categories, left to right. -/
def flatCategories : List testCategory → List testCase
  | [] => []
  | c :: cs => flatCategory c ++ flatCategories cs
end

/-- The specification `flat(cases, categories)`. -/
def flat (cases : List testCase) (categories : List testCategory) : List testCase :=
  cases ++ flatCategories categories

mutual
/-- The number of category nodes of the tree below (and including) a category. -/
def nodesCategory : testCategory → Nat
  | .mk _ _ _ categories => 1 + nodesCategories categories
/-- The number of category nodes of a list of category trees. -/
def nodesCategories : List testCategory → Nat
  | [] => 0
  | c :: cs => nodesCategory c + nodesCategories cs
end

mutual
/-- Every category node of the tree rooted at a category, the root first. -/
def allCategory : testCategory → List testCategory
  | .mk name description cases categories =>
    .mk name description cases categories :: allCategories categories
/-- Every category node of a list of category trees. -/
def allCategories : List testCategory → List testCategory
  | [] => []
  | c :: cs => allCategory c ++ allCategories cs
end

/-- A test case occurs in the profile tree: at the top level or in some category node. -/
def utProfile.hasCase (utp : utProfile) (tc : testCase) : Prop :=
  tc ∈ utp.Cases ∨ ∃ p ∈ allCategories utp.Categories, tc ∈ p.Cases

/-- A list of sibling categories of the profile tree: the top-level `categories` list or
the `categories` list of some category node. -/
def utProfile.hasSiblings (utp : utProfile) (siblings : List testCategory) : Prop :=
  siblings = utp.Categories ∨ ∃ p ∈ allCategories utp.Categories, siblings = p.Categories

/-- What an iterator has still to yield: the rest of its current list, then the
flattening of the categories waiting on its stack, top first. -/
def remaining (it : iterator) : List testCase :=
  it.Cases.drop it.Index ++ flatCategories it.Stacks

/-- A fuel that suffices for a whole run over the profile: one unit per test case, one per
category node, one for the final call that reports exhaustion. -/
def fuelBound (utp : utProfile) : Nat :=
  (flat utp.Cases utp.Categories).length + nodesCategories utp.Categories + 1

/-- A kind is recognised: lower-cased it is `""`, `"test"` or `"benchmark"`. -/
def validType (lower : Char → Char) (tc : testCase) : Prop :=
  ToLower lower tc.Type_ = "" ∨ ToLower lower tc.Type_ = "test" ∨
    ToLower lower tc.Type_ = "benchmark"

/-- Recognition of a kind is decidable. -/
instance (lower : Char → Char) (tc : testCase) : Decidable (validType lower tc) := by
  unfold validType; infer_instance

/-- The expected function of the specification for a case of recognised kind: prefix
`"Benchmark"` and kind `"benchmark"` for a benchmark, prefix `"Test"` and kind `"test"`
otherwise (kind `"test"` or empty), the description unchanged. -/
def expectedFunction (lower : Char → Char) (tc : testCase) : testFunc :=
  if ToLower lower tc.Type_ = "benchmark" then
    { Name := "Benchmark" ++ tc.Name, Type_ := "benchmark", Description := tc.Description }
  else
    { Name := "Test" ++ tc.Name, Type_ := "test", Description := tc.Description }

/-! ## Concrete profiles used for evaluation -/

/-- Top-level cases `Alpha` (kind empty) and `Beta` (kind `benchmark`), no categories. -/
def profileAlphaBeta : utProfile :=
  { Source := "demo.go", Test := "demo_test.go", Description := "",
    Cases := [⟨"Alpha", "", ""⟩, ⟨"Beta", "benchmark", ""⟩], Categories := [] }

/-- Top-level case `b`, categories `C1` with case `a` and `C2` with case `c`. -/
def profileScenario : utProfile :=
  { Source := "demo.go", Test := "demo_test.go", Description := "",
    Cases := [⟨"b", "", ""⟩],
    Categories := [.mk "C1" "" [⟨"a", "", ""⟩] [], .mk "C2" "" [⟨"c", "", ""⟩] []] }

/-- A nested category `Inner` with case `A2` and an empty sub category. -/
def categoryInner : testCategory :=
  .mk "Inner" "" [⟨"A2", "Benchmark", "nested"⟩] [.mk "Empty" "" [] []]

/-- A category `A` with its own case `A1` and the nested category `Inner`. -/
def categoryA : testCategory :=
  .mk "A" "" [⟨"A1", "TEST", ""⟩] [categoryInner]

/-- A category `B` with cases `B1` and `B2`. -/
def categoryB : testCategory :=
  .mk "B" "" [⟨"B1", "", ""⟩, ⟨"B2", "test", ""⟩] []

/-- A nested profile: top-level case `Top`, then categories `A`, an empty one, and `B`. -/
def profileNested : utProfile :=
  { Source := "demo.go", Test := "demo_test.go", Description := "",
    Cases := [⟨"Top", "", ""⟩],
    Categories := [categoryA, .mk "Hollow" "" [] [], categoryB] }

/-- A single top-level case of kind `Unknown`. -/
def profileUnknown : utProfile :=
  { Source := "demo.go", Test := "demo_test.go", Description := "",
    Cases := [⟨"X", "Unknown", ""⟩], Categories := [] }

/-- A valid case `Alpha`, then a case of kind `Unknown`, then a valid case `Omega`. -/
def profileAlphaUnknown : utProfile :=
  { Source := "demo.go", Test := "demo_test.go", Description := "",
    Cases := [⟨"Alpha", "", ""⟩, ⟨"X", "Unknown", ""⟩, ⟨"Omega", "test", ""⟩],
    Categories := [] }

/-! ## Repeated calls of `next` and the size of a profile -/

/-- The results of `k` successive calls of `it.next()`, with the iterator they leave. -/
def nextCalls (fuel : Nat) : Nat → iterator → Option (List (Except Error testCase) × iterator)
  | 0, it => some ([], it)
  | k + 1, it =>
    match it.next fuel with
    | none => none
    | some (r, it) => (nextCalls fuel k it).map (fun rest => (r :: rest.1, rest.2))

/-- The total number of test cases of a profile: those of its top level and those of
every category node of its tree. -/
def totalCases (utp : utProfile) : Nat :=
  utp.Cases.length + ((allCategories utp.Categories).map (fun p => p.Cases.length)).sum

/-! ## goutprofile.go: `ValidateDir` and `isValidProfile`

The file system is met through `ioutil.ReadDir`, `filepath.Walk`, `filepath.Join` and
`ValidateFile` only. Their results are inputs of the embedding: `readDir dir` is what
`ioutil.ReadDir(dir)` returns, `walk dir` is the sequence of calls `filepath.Walk(dir, fn)`
makes to `fn` as long as `fn` returns `nil` (the walk ends at the first call that returns an
error; `fn` never returns `filepath.SkipDir` here), `join` is `filepath.Join`, and
`validate path` is the error of `ValidateFile(path)`, `none` for `nil`. The type `ε` is the
Go type `error` of those results. Suffixes are compared on characters. -/

/-- The part of an `os.FileInfo` that `isValidProfile` reads: `Name()` and `IsDir()`. -/
structure FileInfo where
  Name : String
  IsDir : Bool
  deriving DecidableEq, Repr

/-- Go `strings.HasSuffix(s, suffix)`, that is
`len(s) >= len(suffix) && s[len(s)-len(suffix):] == suffix`. -/
def HasSuffix (s suffix : String) : Bool :=
  decide (s.length ≥ suffix.length) && (s.data.drop (s.length - suffix.length) == suffix.data)

/-- Go `func isValidProfile(info os.FileInfo) bool`. -/
def isValidProfile (info : FileInfo) : Bool :=
  if info.IsDir then false
  else HasSuffix info.Name "_utprofile.yml" || HasSuffix info.Name "_utprofile.yaml"

/-- The errors `ValidateDir` returns, one constructor per way an error is built. -/
inductive DirError (ε : Type) where
  /-- The error of `ValidateFile`, returned as it is. -/
  | validation (err : ε) : DirError ε
  /-- The error `failed to access path %q: %v` of the walk function, with `path`, `err`. -/
  | accessPath (path : String) (err : ε) : DirError ε
  /-- The error `error walking through the path %q: %v`, with `dir` and the error of
  `filepath.Walk`. -/
  | walking (dir : String) (err : DirError ε) : DirError ε
  /-- The error `failed to read dir %q: %v`, with `dir` and the error of `ioutil.ReadDir`. -/
  | readDir (dir : String) (err : ε) : DirError ε
  deriving DecidableEq, Repr

/-- One call of the walk function by `filepath.Walk`: with an error for the path, or with
the `os.FileInfo` of the path. -/
inductive WalkVisit (ε : Type) where
  | failed (path : String) (err : ε) : WalkVisit ε
  | entry (path : String) (info : FileInfo) : WalkVisit ε

/-- The function literal passed to `filepath.Walk`: the slice `validatedProfile` it leaves
and the error it returns. -/
def walkFn {ε : Type} (validate : String → Option ε) (validatedProfile : List String) :
    WalkVisit ε → List String × Option (DirError ε)
  | .failed path err => (validatedProfile, some (.accessPath path err))
  | .entry path info =>
    if ¬ isValidProfile info then (validatedProfile, none)
    else
      match validate path with
      | some err => (validatedProfile, some (.validation err))
      | none => (validatedProfile ++ [path], none)

/-- Go `filepath.Walk(dir, fn)` for the function literal of `ValidateDir`: `fn` is called
for each visit in turn until it returns an error, which is the error of the walk. -/
def Walk {ε : Type} (validate : String → Option ε) :
    List (WalkVisit ε) → List String → List String × Option (DirError ε)
  | [], validatedProfile => (validatedProfile, none)
  | visit :: visits, validatedProfile =>
    match walkFn validate validatedProfile visit with
    | (validatedProfile, some err) => (validatedProfile, some err)
    | (validatedProfile, none) => Walk validate visits validatedProfile

/-- The loop `for _, info := range fileInfos` of `ValidateDir`. -/
def rangeFileInfos {ε : Type} (join : String → String → String)
    (validate : String → Option ε) (dir : String) :
    List FileInfo → List String → List String × Option (DirError ε)
  | [], validatedProfile => (validatedProfile, none)
  | info :: fileInfos, validatedProfile =>
    if ¬ isValidProfile info then rangeFileInfos join validate dir fileInfos validatedProfile
    else
      let fileName := join dir info.Name
      match validate fileName with
      | some err => (validatedProfile, some (.validation err))
      | none => rangeFileInfos join validate dir fileInfos (validatedProfile ++ [fileName])

/-- Go `func ValidateDir(dir string, recursive bool) ([]string, error)`. -/
def ValidateDir {ε : Type} (join : String → String → String)
    (validate : String → Option ε) (readDir : String → Except ε (List FileInfo))
    (walk : String → List (WalkVisit ε)) (dir : String) (recursive : Bool) :
    List String × Option (DirError ε) :=
  if recursive then
    match Walk validate (walk dir) [] with
    | (validatedProfile, some err) => (validatedProfile, some (.walking dir err))
    | (validatedProfile, none) => (validatedProfile, none)
  else
    match readDir dir with
    | .error err => ([], some (.readDir dir err))
    | .ok fileInfos => rangeFileInfos join validate dir fileInfos []

/-! ## Listings, and a file tree without access errors -/

/-- The error of the first path of a list that fails validation, `none` if all pass. -/
def firstFailure {ε : Type} (validate : String → Option ε) : List String → Option ε
  | [] => none
  | p :: ps =>
    match validate p with
    | some err => some err
    | none => firstFailure validate ps

/-- The paths of a list that precede the first one that fails validation. -/
def passedBefore {ε : Type} (validate : String → Option ε) : List String → List String
  | [] => []
  | p :: ps =>
    match validate p with
    | some _ => []
    | none => p :: passedBefore validate ps

/-- The profile files of a directory listing, in listing order, by their joined paths. -/
def listedProfiles (join : String → String → String) (dir : String)
    (fileInfos : List FileInfo) : List String :=
  (fileInfos.filter isValidProfile).map (fun info => join dir info.Name)

/-- The profile files among the visited entries of a walk, in visiting order, by their
paths. -/
def walkedProfiles (entries : List (String × FileInfo)) : List String :=
  (entries.filter (fun e => isValidProfile e.2)).map (fun e => e.1)

/-- A file tree: a file, or a directory with its entries in the order of their names. -/
inductive FsNode where
  | file (name : String) : FsNode
  | dir (name : String) (children : List FsNode) : FsNode

/-- The `os.FileInfo` of a node. -/
def FsNode.info : FsNode → FileInfo
  | .file name => { Name := name, IsDir := false }
  | .dir name _ => { Name := name, IsDir := true }

mutual
/-- The node at `path` and all its descendants, each with its path, a directory before
its entries: the order in which `filepath.Walk` visits them. -/
def treeEntries (join : String → String → String) (path : String) :
    FsNode → List (String × FileInfo)
  | .file name => [(path, { Name := name, IsDir := false })]
  | .dir name children =>
    (path, { Name := name, IsDir := true }) :: childEntries join path children
/-- The entries of a directory at `path` and all their descendants. -/
def childEntries (join : String → String → String) (path : String) :
    List FsNode → List (String × FileInfo)
  | [] => []
  | c :: cs => treeEntries join (join path c.info.Name) c ++ childEntries join path cs
end

/-- What `ioutil.ReadDir` returns for a directory with the given entries that can be read. -/
def readDirOf {ε : Type} (children : List FsNode) : String → Except ε (List FileInfo) :=
  fun _ => .ok (children.map FsNode.info)

/-- The visits of `filepath.Walk` from `dir` when `dir` is the given node and every path can
be accessed. -/
def walkOf {ε : Type} (join : String → String → String) (root : FsNode) :
    String → List (WalkVisit ε) :=
  fun dir => (treeEntries join dir root).map (fun e => .entry e.1 e.2)

/-- A stand-in for `filepath.Join` on two clean relative elements. -/
def joinSlash (dir name : String) : String :=
  dir ++ "/" ++ name

/-- The entries of a directory like the `testdata` of the tests: two profiles and two
other files at the top, one profile and one other file in a sub directory. -/
def testdataEntries : List FsNode :=
  [.file "demo1_test.go", .file "demo1_utprofile.yml", .file "demo2_utprofile.yaml",
    .dir "sub" [.file "demo3_utprofile.yml", .file "notes.yml"],
    .file "utprofile.yml"]

/-- A validation that fails for the one path `testdata/demo2_utprofile.yaml`. -/
def failsDemo2 (path : String) : Option String :=
  if path = "testdata/demo2_utprofile.yaml" then some "mismatch" else none

/-- A validation that passes every path. -/
def passesAll (_ : String) : Option String :=
  none

/-! ## Lemmas on the data model and the iterator -/

theorem pushReversed_eq_append (cs stack : List testCategory) :
    pushReversed cs stack = cs ++ stack := by
  induction cs with
  | nil => rfl
  | cons c cs ih =>
    show c :: pushReversed cs stack = c :: (cs ++ stack)
    rw [ih]

theorem flatCategory_eq (c : testCategory) :
    flatCategory c = c.Cases ++ flatCategories c.Categories := by
  cases c; rfl

theorem nodesCategory_eq (c : testCategory) :
    nodesCategory c = 1 + nodesCategories c.Categories := by
  cases c; rfl

theorem flatCategories_cons (c : testCategory) (cs : List testCategory) :
    flatCategories (c :: cs) = flatCategory c ++ flatCategories cs := rfl

theorem nodesCategories_cons (c : testCategory) (cs : List testCategory) :
    nodesCategories (c :: cs) = nodesCategory c + nodesCategories cs := rfl

theorem flatCategories_append (as bs : List testCategory) :
    flatCategories (as ++ bs) = flatCategories as ++ flatCategories bs := by
  induction as with
  | nil => rfl
  | cons a as ih =>
    rw [List.cons_append, flatCategories_cons, flatCategories_cons, ih, List.append_assoc]

theorem nodesCategories_append (as bs : List testCategory) :
    nodesCategories (as ++ bs) = nodesCategories as + nodesCategories bs := by
  induction as with
  | nil => simp [nodesCategories]
  | cons a as ih =>
    rw [List.cons_append, nodesCategories_cons, nodesCategories_cons, ih, Nat.add_assoc]

theorem popLoop_nil (fuel : Nat) (idx : Nat) (cases : List testCase) :
    popLoop fuel ⟨idx, cases, []⟩ = some ⟨idx, cases, []⟩ := by
  cases fuel <;> rfl

theorem popLoop_cons (fuel : Nat) (idx : Nat) (cases : List testCase)
    (c : testCategory) (rest : List testCategory) :
    popLoop (fuel + 1) ⟨idx, cases, c :: rest⟩ =
      if c.Cases.length > 0 then some ⟨0, c.Cases, c.Categories ++ rest⟩
      else popLoop fuel ⟨idx, cases, c.Categories ++ rest⟩ := by
  rw [popLoop]
  simp only [pushReversed_eq_append]

/-- The pop loop exits when its fuel covers the category nodes on the stack: either the
stack emptied without any case (cursor and list untouched), or a non-empty list was adopted
and what is left to visit is unchanged. -/
theorem popLoop_spec (fuel : Nat) (idx : Nat) (cases : List testCase) :
    ∀ stack : List testCategory, nodesCategories stack ≤ fuel →
      ∃ it, popLoop fuel ⟨idx, cases, stack⟩ = some it ∧
        nodesCategories it.Stacks < nodesCategories stack + 1 ∧
        ((it = ⟨idx, cases, []⟩ ∧ flatCategories stack = []) ∨
          (it.Index = 0 ∧ 0 < it.Cases.length ∧
            it.Cases ++ flatCategories it.Stacks = flatCategories stack ∧
            nodesCategories it.Stacks < nodesCategories stack)) := by
  induction fuel with
  | zero =>
    intro stack h
    cases stack with
    | nil => exact ⟨_, popLoop_nil 0 idx cases, by simp [nodesCategories], Or.inl ⟨rfl, rfl⟩⟩
    | cons c rest =>
      rw [nodesCategories_cons, nodesCategory_eq] at h
      omega
  | succ fuel ih =>
    intro stack h
    cases stack with
    | nil => exact ⟨_, popLoop_nil _ idx cases, by simp [nodesCategories], Or.inl ⟨rfl, rfl⟩⟩
    | cons c rest =>
      rw [nodesCategories_cons, nodesCategory_eq] at h
      rw [popLoop_cons]
      by_cases hc : c.Cases.length > 0
      · rw [if_pos hc]
        refine ⟨_, rfl, ?_, Or.inr ⟨rfl, hc, ?_, ?_⟩⟩
        · simp only [nodesCategories_cons, nodesCategory_eq, nodesCategories_append]; omega
        · simp only [flatCategories_cons, flatCategory_eq, flatCategories_append,
            List.append_assoc]
        · simp only [nodesCategories_cons, nodesCategory_eq, nodesCategories_append]; omega
      · rw [if_neg hc]
        have hnil : c.Cases = [] := by
          cases hcs : c.Cases with
          | nil => rfl
          | cons x xs => rw [hcs] at hc; simp at hc
        have hn : nodesCategories (c.Categories ++ rest) ≤ fuel := by
          rw [nodesCategories_append]; omega
        obtain ⟨it, hit, hlt, hor⟩ := ih _ hn
        have hflat : flatCategories (c :: rest) = flatCategories (c.Categories ++ rest) := by
          simp only [flatCategories_cons, flatCategory_eq, flatCategories_append, hnil,
            List.nil_append]
        have hnodes : nodesCategories (c :: rest) = nodesCategories (c.Categories ++ rest) + 1 := by
          simp only [nodesCategories_cons, nodesCategory_eq, nodesCategories_append]; omega
        refine ⟨it, hit, by omega, ?_⟩
        rcases hor with ⟨h1, h2⟩ | ⟨h1, h2, h3, h4⟩
        · exact Or.inl ⟨h1, by rw [hflat]; exact h2⟩
        · exact Or.inr ⟨h1, h2, by rw [hflat]; exact h3, by omega⟩

theorem next_spec (fuel : Nat) (it : iterator) (h : nodesCategories it.Stacks ≤ fuel) :
    (remaining it = [] →
      it.next fuel = some (.error Error.notFound, { it with Stacks := [] })) ∧
    (∀ c r, remaining it = c :: r →
      ∃ it', it.next fuel = some (.ok c, it') ∧ remaining it' = r ∧
        nodesCategories it'.Stacks ≤ nodesCategories it.Stacks) := by
  obtain ⟨idx, cases, stack⟩ := it
  simp only [remaining] at *
  by_cases hex : cases.length = 0 ∨ idx ≥ cases.length
  · have hdrop : cases.drop idx = [] := by
      rcases hex with h0 | h1
      · rw [List.length_eq_zero] at h0; subst h0; simp
      · exact List.drop_eq_nil_of_le h1
    obtain ⟨it', hit, hlt, hor⟩ := popLoop_spec fuel idx cases stack h
    have hnext : iterator.next fuel ⟨idx, cases, stack⟩ =
        if h : it'.Cases.length > 0 ∧ it'.Index < it'.Cases.length then
          some (.ok (it'.Cases.get ⟨it'.Index, h.2⟩), { it' with Index := it'.Index + 1 })
        else some (.error Error.notFound, it') := by
      simp only [iterator.next, hex, if_true, hit]
    rw [hnext, hdrop, List.nil_append]
    rcases hor with ⟨h1, h2⟩ | ⟨h1, h2, h3, h4⟩
    · subst h1
      have hno : ¬ (cases.length > 0 ∧ idx < cases.length) := by
        rintro ⟨ha, hb⟩; rcases hex with h0 | h1 <;> omega
      constructor
      · intro _; rw [dif_neg hno]
      · intro c r hcr; rw [h2] at hcr; cases hcr
    · constructor
      · intro hnil
        rw [hnil] at h3
        have hl := congrArg List.length h3
        rw [List.length_append, List.length_nil] at hl
        omega
      · intro c r hcr
        have hyes : it'.Cases.length > 0 ∧ it'.Index < it'.Cases.length := ⟨h2, by omega⟩
        rw [dif_pos hyes]
        obtain ⟨idx', cases', stack'⟩ := it'
        simp only at h1 h2 h3 h4 hlt hyes ⊢
        subst h1
        cases cases' with
        | nil => simp at h2
        | cons x xs =>
          rw [← h3] at hcr
          simp only [List.cons_append, List.cons.injEq] at hcr
          obtain ⟨hx, hr⟩ := hcr
          subst hx
          refine ⟨_, rfl, ?_, ?_⟩
          · simpa using hr
          · show nodesCategories stack' ≤ nodesCategories stack
            omega
  · have hlt : idx < cases.length := by
      by_contra hcon; exact hex (Or.inr (by omega))
    have hnext : iterator.next fuel ⟨idx, cases, stack⟩ =
        some (.ok (cases.get ⟨idx, hlt⟩), ⟨idx + 1, cases, stack⟩) := by
      have hyes : cases.length > 0 ∧ idx < cases.length := ⟨by omega, hlt⟩
      simp only [iterator.next, hex, if_false, dif_pos hyes]
    have hdrop : cases.drop idx = cases.get ⟨idx, hlt⟩ :: cases.drop (idx + 1) := by
      simp
    rw [hnext, hdrop]
    constructor
    · intro hnil; cases hnil
    · intro c r hcr
      simp only [List.cons_append, List.cons.injEq] at hcr
      obtain ⟨hx, hr⟩ := hcr
      exact ⟨_, by rw [hx], hr, le_refl _⟩

theorem remaining_iterator (utp : utProfile) :
    remaining utp.iterator = flat utp.Cases utp.Categories := by
  simp [remaining, utProfile.iterator, flat, pushReversed_eq_append]

theorem nodes_iterator (utp : utProfile) :
    nodesCategories utp.iterator.Stacks = nodesCategories utp.Categories := by
  simp [utProfile.iterator, pushReversed_eq_append]

/-- With enough fuel, draining an iterator yields exactly what it has still to yield. -/
theorem drain_spec (fuel : Nat) :
    ∀ it : iterator, (remaining it).length + nodesCategories it.Stacks + 1 ≤ fuel →
      drain fuel it = some (remaining it) := by
  induction fuel with
  | zero => intro it h; omega
  | succ fuel ih =>
    intro it h
    have hn : nodesCategories it.Stacks ≤ fuel := by omega
    obtain ⟨hnil, hcons⟩ := next_spec fuel it hn
    cases hrem : remaining it with
    | nil => simp only [drain, hnil hrem]
    | cons c r =>
      obtain ⟨it', hnext, hrem', hnodes⟩ := hcons c r hrem
      rw [hrem, List.length_cons] at h
      have hfuel : (remaining it').length + nodesCategories it'.Stacks + 1 ≤ fuel := by
        rw [hrem']; omega
      simp only [drain, hnext, ih it' hfuel, hrem', Option.map_some']

theorem switchType_valid (lower : Char → Char) (tc : testCase) (h : validType lower tc) :
    switchType lower tc = .ok (expectedFunction lower tc) := by
  unfold switchType expectedFunction typeTest typeBenchmark prefixTest prefixBenchmark
  rcases h with h | h | h
  · simp [h]
  · simp [h]
  · simp [h]

theorem switchType_invalid (lower : Char → Char) (tc : testCase) (h : ¬ validType lower tc) :
    switchType lower tc = .error (Error.invalidType tc.Type_) := by
  unfold validType at h
  unfold switchType typeTest typeBenchmark
  simp only [not_or] at h
  simp [h.1, h.2.1, h.2.2]

/-- The generation loop consumes a prefix of recognised kinds, appending their expected
functions, and is then in the state of a loop started behind that prefix. -/
theorem generateLoop_valid (lower : Char → Char) (rest : List testCase) :
    ∀ (pre : List testCase) (fuel : Nat) (it : iterator) (acc : List testFunc),
      remaining it = pre ++ rest → (∀ tc ∈ pre, validType lower tc) →
      (remaining it).length + nodesCategories it.Stacks + 1 ≤ fuel →
      ∃ fuel' it', generateLoop lower fuel it acc =
          generateLoop lower fuel' it' (acc ++ pre.map (expectedFunction lower)) ∧
        remaining it' = rest ∧ rest.length + nodesCategories it'.Stacks + 1 ≤ fuel' := by
  intro pre
  induction pre with
  | nil =>
    intro fuel it acc hrem _ hfuel
    refine ⟨fuel, it, by simp, by simpa using hrem, ?_⟩
    rw [hrem] at hfuel; simpa using hfuel
  | cons p ps ih =>
    intro fuel it acc hrem hvalid hfuel
    cases fuel with
    | zero => omega
    | succ fuel =>
      have hn : nodesCategories it.Stacks ≤ fuel := by omega
      obtain ⟨it1, hnext, hrem1, hnodes⟩ := (next_spec fuel it hn).2 p (ps ++ rest) hrem
      have hp : validType lower p := hvalid p (List.mem_cons_self _ _)
      have hfuel1 : (remaining it1).length + nodesCategories it1.Stacks + 1 ≤ fuel := by
        rw [hrem, List.cons_append, List.length_cons] at hfuel
        rw [hrem1]; omega
      obtain ⟨fuel', it', heq, hrem', hfuel'⟩ :=
        ih fuel it1 (acc ++ [expectedFunction lower p]) hrem1
          (fun tc htc => hvalid tc (List.mem_cons_of_mem _ htc)) hfuel1
      refine ⟨fuel', it', ?_, hrem', hfuel'⟩
      rw [generateLoop, hnext]
      simp only [switchType_valid lower p hp]
      rw [heq]
      simp

theorem generateLoop_done (lower : Char → Char) (fuel : Nat) (it : iterator)
    (acc : List testFunc) (hrem : remaining it = [])
    (hfuel : nodesCategories it.Stacks + 1 ≤ fuel) :
    generateLoop lower fuel it acc = some (acc, none) := by
  cases fuel with
  | zero => omega
  | succ fuel =>
    rw [generateLoop, (next_spec fuel it (by omega)).1 hrem]

theorem generateLoop_invalid (lower : Char → Char) (fuel : Nat) (it : iterator)
    (acc : List testFunc) (c : testCase) (post : List testCase)
    (hrem : remaining it = c :: post) (hc : ¬ validType lower c)
    (hfuel : nodesCategories it.Stacks + 1 ≤ fuel) :
    generateLoop lower fuel it acc = some (acc, some (Error.invalidType c.Type_)) := by
  cases fuel with
  | zero => omega
  | succ fuel =>
    obtain ⟨it1, hnext, _, _⟩ := (next_spec fuel it (by omega)).2 c post hrem
    rw [generateLoop, hnext]
    simp only [switchType_invalid lower c hc]

/-- With enough fuel and every kind recognised, the generated functions are the expected
functions of the flattening, without error. -/
theorem generate_all_valid (lower : Char → Char) (utp : utProfile) (fuel : Nat)
    (hfuel : fuelBound utp ≤ fuel)
    (hvalid : ∀ tc ∈ flat utp.Cases utp.Categories, validType lower tc) :
    generateTestFunctions lower fuel utp =
      some ((flat utp.Cases utp.Categories).map (expectedFunction lower), none) := by
  unfold fuelBound at hfuel
  have hrem := remaining_iterator utp
  obtain ⟨fuel', it', heq, hrem', hfuel'⟩ :=
    generateLoop_valid lower [] (flat utp.Cases utp.Categories) fuel utp.iterator []
      (by rw [hrem, List.append_nil]) hvalid (by rw [hrem, nodes_iterator]; exact hfuel)
  unfold generateTestFunctions
  rw [heq, generateLoop_done lower fuel' it' _ hrem' (by simpa using hfuel')]
  simp

/-- With enough fuel, generation stops at the first case of unrecognised kind with the
expected functions of the cases before it and the invalid-type error of that case. -/
theorem generate_first_invalid (lower : Char → Char) (utp : utProfile) (fuel : Nat)
    (hfuel : fuelBound utp ≤ fuel) (pre post : List testCase) (c : testCase)
    (hflat : flat utp.Cases utp.Categories = pre ++ c :: post)
    (hvalid : ∀ tc ∈ pre, validType lower tc) (hc : ¬ validType lower c) :
    generateTestFunctions lower fuel utp =
      some (pre.map (expectedFunction lower), some (Error.invalidType c.Type_)) := by
  unfold fuelBound at hfuel
  have hrem := remaining_iterator utp
  obtain ⟨fuel', it', heq, hrem', hfuel'⟩ :=
    generateLoop_valid lower (c :: post) pre fuel utp.iterator []
      (by rw [hrem, hflat]) hvalid (by rw [hrem, nodes_iterator]; exact hfuel)
  unfold generateTestFunctions
  rw [heq, generateLoop_invalid lower fuel' it' _ c post hrem' hc (by omega)]
  simp

/-- A list either has only recognised kinds or splits at its first unrecognised kind. -/
theorem split_first_invalid (lower : Char → Char) (l : List testCase) :
    (∀ tc ∈ l, validType lower tc) ∨
      ∃ pre c post, l = pre ++ c :: post ∧ (∀ tc ∈ pre, validType lower tc) ∧
        ¬ validType lower c := by
  induction l with
  | nil => left; simp
  | cons x xs ih =>
    by_cases hx : validType lower x
    · rcases ih with h | ⟨pre, c, post, h1, h2, h3⟩
      · left
        intro tc htc
        rcases List.mem_cons.1 htc with h' | h'
        · rw [h']; exact hx
        · exact h tc h'
      · right
        refine ⟨x :: pre, c, post, by rw [h1]; rfl, ?_, h3⟩
        intro tc htc
        rcases List.mem_cons.1 htc with h' | h'
        · rw [h']; exact hx
        · exact h2 tc h'
    · right
      exact ⟨[], x, xs, rfl, by simp, hx⟩

/-! ## Lemmas on the profile tree -/

theorem allCategory_eq (c : testCategory) :
    allCategory c = c :: allCategories c.Categories := by
  cases c; rfl

theorem allCategories_cons (c : testCategory) (cs : List testCategory) :
    allCategories (c :: cs) = allCategory c ++ allCategories cs := rfl

mutual
/-- The flattening of a node of a category tree is a block of the flattening of the tree. -/
theorem block_allCategory : ∀ (c p : testCategory), p ∈ allCategory c →
    ∃ l1 l3, flatCategory c = l1 ++ flatCategory p ++ l3
  | .mk name description cases categories, p, h => by
    rw [allCategory_eq] at h
    rcases List.mem_cons.1 h with h | h
    · subst h; exact ⟨[], [], by simp⟩
    · obtain ⟨l1, l3, e⟩ := block_allCategories categories p h
      exact ⟨cases ++ l1, l3, by rw [flatCategory_eq]; simp [testCategory.Cases, testCategory.Categories, e]⟩
/-- The flattening of a node of a forest is a block of the flattening of the forest. -/
theorem block_allCategories : ∀ (cs : List testCategory) (p : testCategory),
    p ∈ allCategories cs → ∃ l1 l3, flatCategories cs = l1 ++ flatCategory p ++ l3
  | [], p, h => by simp [allCategories] at h
  | c :: cs, p, h => by
    rw [allCategories_cons, List.mem_append] at h
    rcases h with h | h
    · obtain ⟨l1, l3, e⟩ := block_allCategory c p h
      exact ⟨l1, l3 ++ flatCategories cs, by rw [flatCategories_cons, e]; simp⟩
    · obtain ⟨l1, l3, e⟩ := block_allCategories cs p h
      exact ⟨flatCategory c ++ l1, l3, by rw [flatCategories_cons, e]; simp⟩
end

mutual
/-- The cases of the flattening of a category tree are the cases of its nodes. -/
theorem mem_flatCategory_iff : ∀ (c : testCategory) (tc : testCase),
    tc ∈ flatCategory c ↔ ∃ p ∈ allCategory c, tc ∈ p.Cases
  | .mk name description cases categories, tc => by
    have ih := mem_flatCategories_iff categories tc
    rw [flatCategory_eq, List.mem_append]
    simp only [allCategory_eq, testCategory.Cases, testCategory.Categories, List.mem_cons,
      exists_eq_or_imp, ih]
/-- The cases of the flattening of a forest are the cases of its nodes. -/
theorem mem_flatCategories_iff : ∀ (cs : List testCategory) (tc : testCase),
    tc ∈ flatCategories cs ↔ ∃ p ∈ allCategories cs, tc ∈ p.Cases
  | [], tc => by simp [flatCategories, allCategories]
  | c :: cs, tc => by
    rw [flatCategories_cons, List.mem_append, mem_flatCategory_iff c tc,
      mem_flatCategories_iff cs tc]
    simp only [allCategories_cons, List.mem_append, or_and_right, exists_or]
end

theorem mem_flat_iff (utp : utProfile) (tc : testCase) :
    tc ∈ flat utp.Cases utp.Categories ↔ utp.hasCase tc := by
  rw [flat, List.mem_append, mem_flatCategories_iff, utProfile.hasCase]

/-- The flattening of a list of siblings around two of its members. -/
theorem flat_siblings (pre mid post : List testCategory) (a b : testCategory) :
    flatCategories (pre ++ a :: (mid ++ b :: post)) =
      flatCategories pre ++ flatCategory a ++ flatCategories mid ++ flatCategory b
        ++ flatCategories post := by
  simp only [flatCategories_append, flatCategories_cons, List.append_assoc]

/-- The flattening of any sibling list of the profile tree is a block of the flattening
of the profile. -/
theorem block_siblings (utp : utProfile) (siblings : List testCategory)
    (h : utp.hasSiblings siblings) :
    ∃ l1 l3, flat utp.Cases utp.Categories = l1 ++ flatCategories siblings ++ l3 := by
  rcases h with h | ⟨p, hp, h⟩
  · subst h; exact ⟨utp.Cases, [], by simp [flat]⟩
  · subst h
    obtain ⟨l1, l3, e⟩ := block_allCategories utp.Categories p hp
    exact ⟨utp.Cases ++ l1 ++ p.Cases, l3, by rw [flat, e, flatCategory_eq]; simp⟩

/-! ## Lemmas on the walk of `checkTestCases` -/

theorem checkLoop_nil (casesInFile : List String) (casesInProfile : List testFunc)
    (index : Nat) : checkLoop casesInFile casesInProfile [] index = .ok := rfl

theorem checkLoop_cons (casesInFile : List String) (casesInProfile : List testFunc)
    (funcInFile : String) (remaining : List String) (index : Nat) (funcInProfile : testFunc)
    (h : casesInProfile[index]? = some funcInProfile) :
    checkLoop casesInFile casesInProfile (funcInFile :: remaining) index =
      if ¬ funcInProfile.Name ∈ casesInFile then
        .fail (Error.missingCase funcInProfile.Name)
      else if funcInFile ≠ funcInProfile.Name then
        .fail (Error.positionMismatch funcInFile funcInProfile.Name (index + 1))
      else checkLoop casesInFile casesInProfile remaining (index + 1) := by
  rw [checkLoop]
  simp only [h]

/-- The walk passes over a run of keys that agree with the profile position for position
and that the map contains. -/
theorem checkLoop_agree (casesInFile : List String) (casesInProfile : List testFunc)
    (rest : List String) :
    ∀ (pre : List String) (index : Nat),
      (∀ j, j < pre.length → pre[j]? = (casesInProfile[index + j]?).map testFunc.Name) →
      (∀ n ∈ pre, n ∈ casesInFile) →
      checkLoop casesInFile casesInProfile (pre ++ rest) index =
        checkLoop casesInFile casesInProfile rest (index + pre.length) := by
  intro pre
  induction pre with
  | nil => intro index _ _; rfl
  | cons a pre ih =>
    intro index hagree hmem
    have h0 := hagree 0 (by simp)
    simp only [List.getElem?_cons_zero, Nat.add_zero] at h0
    cases hp : casesInProfile[index]? with
    | none => rw [hp] at h0; simp at h0
    | some e =>
      rw [hp] at h0
      simp only [Option.map_some', Option.some.injEq] at h0
      rw [List.cons_append, checkLoop_cons _ _ _ _ _ e hp]
      have hin : e.Name ∈ casesInFile := by
        rw [← h0]; exact hmem a (List.mem_cons_self _ _)
      rw [if_neg (not_not.2 hin), if_neg (not_not.2 h0)]
      rw [ih (index + 1) ?_ (fun n hn => hmem n (List.mem_cons_of_mem _ hn))]
      · rw [List.length_cons]; congr 1; omega
      · intro j hj
        have := hagree (j + 1) (by simp; omega)
        simp only [List.getElem?_cons_succ] at this
        rw [this]; congr 2; omega

/-- A walk that succeeds over as many keys as the profile has positions left has seen the
names of those positions, in order. -/
theorem checkLoop_ok (casesInFile : List String) (casesInProfile : List testFunc) :
    ∀ (rem : List String) (index : Nat),
      checkLoop casesInFile casesInProfile rem index = .ok →
      rem.length + index = casesInProfile.length →
      rem = (casesInProfile.drop index).map testFunc.Name := by
  intro rem
  induction rem with
  | nil =>
    intro index _ hlen
    rw [List.drop_eq_nil_of_le (by simp at hlen; omega)]; rfl
  | cons a rem ih =>
    intro index hok hlen
    rw [List.length_cons] at hlen
    have hidx : index < casesInProfile.length := by omega
    have hp : casesInProfile[index]? = some casesInProfile[index] :=
      List.getElem?_eq_getElem hidx
    rw [checkLoop_cons _ _ _ _ _ _ hp] at hok
    by_cases h1 : casesInProfile[index].Name ∈ casesInFile
    · rw [if_neg (not_not.2 h1)] at hok
      by_cases h2 : a = casesInProfile[index].Name
      · rw [if_neg (not_not.2 h2)] at hok
        have := ih (index + 1) hok (by omega)
        rw [List.drop_eq_getElem_cons hidx, List.map_cons, ← this, ← h2]
      · rw [if_pos h2] at hok; cases hok
    · rw [if_pos h1] at hok; cases hok

/-- The walk never builds a count-mismatch error. -/
theorem checkLoop_ne_countMismatch (casesInFile : List String)
    (casesInProfile : List testFunc) (x y : Nat) :
    ∀ (rem : List String) (index : Nat),
      checkLoop casesInFile casesInProfile rem index ≠ .fail (Error.countMismatch x y) := by
  intro rem
  induction rem with
  | nil => intro index h; cases h
  | cons a rem ih =>
    intro index h
    cases hp : casesInProfile[index]? with
    | none => rw [checkLoop, hp] at h; cases h
    | some e =>
      rw [checkLoop_cons _ _ _ _ _ e hp] at h
      by_cases h1 : e.Name ∈ casesInFile
      · rw [if_neg (not_not.2 h1)] at h
        by_cases h2 : a = e.Name
        · rw [if_neg (not_not.2 h2)] at h; exact ih _ h
        · rw [if_pos h2] at h; cases h
      · rw [if_pos h1] at h; cases h

/-- A missing-case error of the walk names a profile function absent from the map. -/
theorem checkLoop_missingCase (casesInFile : List String)
    (casesInProfile : List testFunc) (name : String) :
    ∀ (rem : List String) (index : Nat),
      checkLoop casesInFile casesInProfile rem index = .fail (Error.missingCase name) →
      ¬ name ∈ casesInFile ∧ ∃ f ∈ casesInProfile, f.Name = name := by
  intro rem
  induction rem with
  | nil => intro index h; cases h
  | cons a rem ih =>
    intro index h
    cases hp : casesInProfile[index]? with
    | none => rw [checkLoop, hp] at h; cases h
    | some e =>
      rw [checkLoop_cons _ _ _ _ _ e hp] at h
      by_cases h1 : e.Name ∈ casesInFile
      · rw [if_neg (not_not.2 h1)] at h
        by_cases h2 : a = e.Name
        · rw [if_neg (not_not.2 h2)] at h; exact ih _ h
        · rw [if_pos h2] at h; cases h
      · rw [if_pos h1] at h
        injection h with h
        injection h with h
        subst h
        exact ⟨h1, e, List.getElem?_mem hp, rfl⟩

/-- The walk of `checkTestCases` up to the first position where the key and the profile
name differ: the decision taken there. -/
theorem checkTestCases_first_diff (casesInFile : List String)
    (casesInProfile : List testFunc) (i : Nat) (a : String) (e : testFunc)
    (hlen : casesInFile.length = casesInProfile.length)
    (hpre : ∀ j, j < i → casesInFile[j]? = (casesInProfile[j]?).map testFunc.Name)
    (ha : casesInFile[i]? = some a) (he : casesInProfile[i]? = some e)
    (hne : a ≠ e.Name) :
    checkTestCases casesInFile casesInProfile =
      if ¬ e.Name ∈ casesInFile then .fail (Error.missingCase e.Name)
      else .fail (Error.positionMismatch a e.Name (i + 1)) := by
  have hi : i < casesInFile.length := by
    by_contra hcon
    rw [List.getElem?_eq_none (by omega)] at ha; cases ha
  have hai : casesInFile[i] = a := by
    rw [List.getElem?_eq_getElem hi] at ha; exact Option.some.inj ha
  have hsplit : casesInFile = casesInFile.take i ++ a :: casesInFile.drop (i + 1) := by
    rw [← hai, ← List.drop_eq_getElem_cons hi, List.take_append_drop]
  have htl : (casesInFile.take i).length = i := by
    rw [List.length_take]; omega
  unfold checkTestCases
  rw [if_neg (not_not.2 hlen)]
  have hwalk := checkLoop_agree casesInFile casesInProfile (a :: casesInFile.drop (i + 1))
    (casesInFile.take i) 0 ?_ ?_
  · rw [← hsplit, htl, Nat.zero_add] at hwalk
    rw [hwalk, checkLoop_cons _ _ _ _ _ e he, if_pos hne]
  · intro j hj
    rw [htl] at hj
    rw [Nat.zero_add, ← hpre j hj, List.getElem?_take_of_lt hj]
  · intro n hn
    exact List.mem_of_mem_take hn

/-! ## Further lemmas -/

theorem ToLower_empty (lower : Char → Char) : ToLower lower "" = "" := rfl

/-- The specification's flattening satisfies its recursive equation. -/
theorem flat_eq_concat (cases : List testCase) (categories : List testCategory) :
    flat cases categories =
      cases ++ (categories.map (fun c => flat c.Cases c.Categories)).flatten := by
  unfold flat
  congr 1
  induction categories with
  | nil => rfl
  | cons c cs ih =>
    rw [flatCategories_cons, ih, List.map_cons, List.flatten_cons, flatCategory_eq]

theorem drain_iterator (utp : utProfile) (fuel : Nat) (hfuel : fuelBound utp ≤ fuel) :
    drain fuel utp.iterator = some (flat utp.Cases utp.Categories) := by
  rw [drain_spec fuel utp.iterator, remaining_iterator]
  rw [remaining_iterator, nodes_iterator]
  exact hfuel

theorem flat_of_drain (utp : utProfile) (fuel : Nat) (hfuel : fuelBound utp ≤ fuel)
    (l : List testCase) (h : drain fuel utp.iterator = some l) :
    flat utp.Cases utp.Categories = l := by
  rw [drain_iterator utp fuel hfuel] at h
  exact Option.some.inj h

theorem switchType_test (lower : Char → Char) (tc : testCase)
    (h : tc.Type_ = "" ∨ ToLower lower tc.Type_ = "test") :
    validType lower tc ∧ expectedFunction lower tc =
      { Name := "Test" ++ tc.Name, Type_ := "test", Description := tc.Description } := by
  have hv : ToLower lower tc.Type_ = "" ∨ ToLower lower tc.Type_ = "test" := by
    rcases h with h | h
    · left; rw [h]; rfl
    · right; exact h
  refine ⟨by unfold validType; tauto, ?_⟩
  unfold expectedFunction
  rcases hv with h | h <;> simp [h]

theorem switchType_benchmark (lower : Char → Char) (tc : testCase)
    (h : ToLower lower tc.Type_ = "benchmark") :
    validType lower tc ∧ expectedFunction lower tc =
      { Name := "Benchmark" ++ tc.Name, Type_ := "benchmark",
        Description := tc.Description } := by
  refine ⟨by unfold validType; tauto, ?_⟩
  unfold expectedFunction
  simp [h]

theorem getElem?_append_cons_length {α : Type} (a : List α) (x : α) (b : List α) :
    (a ++ x :: b)[a.length]? = some x := by
  induction a with
  | nil => simp
  | cons y a ih => rw [List.cons_append, List.length_cons, List.getElem?_cons_succ, ih]

theorem getElem?_map_append_cons {α β : Type} (f : α → β) (a : List α) (x : α)
    (b : List β) : (a.map f ++ f x :: b)[a.length]? = some (f x) := by
  have h := getElem?_append_cons_length (a.map f) (f x) b
  rwa [List.length_map] at h

/-- With enough fuel, a case reached by the generation loop (no unrecognised kind before
it) of recognised kind has its expected function at its own position of the result. -/
theorem generate_at (lower : Char → Char) (utp : utProfile) (fuel : Nat)
    (hfuel : fuelBound utp ≤ fuel) (pre post : List testCase) (tc : testCase)
    (hflat : flat utp.Cases utp.Categories = pre ++ tc :: post)
    (hpre : ∀ x ∈ pre, validType lower x) (hv : validType lower tc) :
    ∃ fs err, generateTestFunctions lower fuel utp = some (fs, err) ∧
      fs[pre.length]? = some (expectedFunction lower tc) := by
  have hpre' : ∀ x ∈ pre ++ [tc], validType lower x := by
    intro x hx
    rcases List.mem_append.1 hx with h | h
    · exact hpre x h
    · rw [List.mem_singleton.1 h]; exact hv
  have hflat' : flat utp.Cases utp.Categories = (pre ++ [tc]) ++ post := by
    rw [hflat]; simp
  rcases split_first_invalid lower post with hall | ⟨p2, c2, post2, h1, h2, h3⟩
  · refine ⟨_, _, generate_all_valid lower utp fuel hfuel ?_, ?_⟩
    · intro x hx
      rw [hflat'] at hx
      rcases List.mem_append.1 hx with h | h
      · exact hpre' x h
      · exact hall x h
    · rw [hflat, List.map_append, List.map_cons]
      exact getElem?_map_append_cons _ _ _ _
  · refine ⟨_, _, generate_first_invalid lower utp fuel hfuel ((pre ++ [tc]) ++ p2) post2 c2
      (by rw [hflat', h1]; simp) ?_ h3, ?_⟩
    · intro x hx
      rcases List.mem_append.1 hx with h | h
      · exact hpre' x h
      · exact h2 x h
    · rw [List.append_assoc, List.map_append, List.singleton_append, List.map_cons]
      exact getElem?_map_append_cons _ _ _ _

/-- The split of a list at its first case of unrecognised kind is unique. -/
theorem first_invalid_unique (lower : Char → Char) :
    ∀ (pre pre' : List testCase) (c c' : testCase) (post post' : List testCase),
      pre ++ c :: post = pre' ++ c' :: post' →
      (∀ x ∈ pre, validType lower x) → (∀ x ∈ pre', validType lower x) →
      ¬ validType lower c → ¬ validType lower c' →
      pre = pre' ∧ c = c' ∧ post = post' := by
  intro pre
  induction pre with
  | nil =>
    intro pre' c c' post post' h _ hpre' hc _
    cases pre' with
    | nil =>
      simp only [List.nil_append, List.cons.injEq] at h
      exact ⟨rfl, h.1, h.2⟩
    | cons y pre' =>
      simp only [List.nil_append, List.cons_append, List.cons.injEq] at h
      exact absurd (h.1 ▸ hpre' y (List.mem_cons_self _ _)) hc
  | cons x pre ih =>
    intro pre' c c' post post' h hpre hpre' hc hc'
    cases pre' with
    | nil =>
      simp only [List.nil_append, List.cons_append, List.cons.injEq] at h
      exact absurd (h.1 ▸ hpre x (List.mem_cons_self _ _)) hc'
    | cons y pre' =>
      simp only [List.cons_append, List.cons.injEq] at h
      obtain ⟨e1, e2, e3⟩ := ih pre' c c' post post' h.2
        (fun z hz => hpre z (List.mem_cons_of_mem _ hz))
        (fun z hz => hpre' z (List.mem_cons_of_mem _ hz)) hc hc'
      exact ⟨by rw [h.1, e1], e2, e3⟩

/-- With enough fuel `generateTestFunctions` returns; its error is the invalid-type error
of the first case of unrecognised kind, if there is one, and its functions are the
expected functions of the cases before that case (of all cases if there is none). -/
theorem generate_cases (lower : Char → Char) (utp : utProfile) (fuel : Nat)
    (hfuel : fuelBound utp ≤ fuel) :
    ((∀ tc ∈ flat utp.Cases utp.Categories, validType lower tc) ∧
      generateTestFunctions lower fuel utp =
        some ((flat utp.Cases utp.Categories).map (expectedFunction lower), none)) ∨
    (∃ pre c post, flat utp.Cases utp.Categories = pre ++ c :: post ∧
      (∀ tc ∈ pre, validType lower tc) ∧ ¬ validType lower c ∧
      generateTestFunctions lower fuel utp =
        some (pre.map (expectedFunction lower), some (Error.invalidType c.Type_))) := by
  rcases split_first_invalid lower (flat utp.Cases utp.Categories) with
    h | ⟨pre, c, post, h1, h2, h3⟩
  · exact Or.inl ⟨h, generate_all_valid lower utp fuel hfuel h⟩
  · exact Or.inr ⟨pre, c, post, h1, h2, h3,
      generate_first_invalid lower utp fuel hfuel pre post c h1 h2 h3⟩

/-- Matching the names of a profile against the profile succeeds. -/
theorem checkTestCases_self (casesInProfile : List testFunc) :
    checkTestCases (casesInProfile.map testFunc.Name) casesInProfile = .ok := by
  unfold checkTestCases
  rw [if_neg (not_not.2 (List.length_map _ _))]
  have h := checkLoop_agree (casesInProfile.map testFunc.Name) casesInProfile []
    (casesInProfile.map testFunc.Name) 0 ?_ (fun n hn => hn)
  · rw [List.append_nil] at h
    rw [h]; rfl
  · intro j _
    rw [Nat.zero_add, List.getElem?_map]

/-- Success of `checkTestCases` means the keys are the profile names, in order. -/
theorem checkTestCases_ok_iff (casesInFile : List String) (casesInProfile : List testFunc) :
    checkTestCases casesInFile casesInProfile = .ok ↔
      casesInFile = casesInProfile.map testFunc.Name := by
  constructor
  · intro h
    unfold checkTestCases at h
    by_cases hlen : casesInFile.length = casesInProfile.length
    · rw [if_neg (not_not.2 hlen)] at h
      have := checkLoop_ok casesInFile casesInProfile casesInFile 0 h (by omega)
      rwa [List.drop_zero] at this
    · rw [if_pos hlen] at h; cases h
  · intro h
    rw [h]; exact checkTestCases_self casesInProfile

/-- A position-mismatch error of the walk names the key `a` at the reported position and
the profile function at that position, which the map contains; the positions before
agree. -/
theorem checkLoop_positionMismatch (casesInFile : List String)
    (casesInProfile : List testFunc) (a name : String) (pos : Nat) :
    ∀ (rem : List String) (index : Nat),
      checkLoop casesInFile casesInProfile rem index =
        .fail (Error.positionMismatch a name pos) →
      ∃ k f, pos = index + k + 1 ∧ rem[k]? = some a ∧
        casesInProfile[index + k]? = some f ∧ f.Name = name ∧ a ≠ name ∧
        name ∈ casesInFile ∧
        ∀ j, j < k → rem[j]? = (casesInProfile[index + j]?).map testFunc.Name := by
  intro rem
  induction rem with
  | nil => intro index h; cases h
  | cons x rem ih =>
    intro index h
    cases hp : casesInProfile[index]? with
    | none => rw [checkLoop, hp] at h; cases h
    | some e =>
      rw [checkLoop_cons _ _ _ _ _ e hp] at h
      by_cases h1 : e.Name ∈ casesInFile
      · rw [if_neg (not_not.2 h1)] at h
        by_cases h2 : x = e.Name
        · rw [if_neg (not_not.2 h2)] at h
          obtain ⟨k, f, hpos, hk, hf, hname, hne, hmem, hagree⟩ := ih _ h
          refine ⟨k + 1, f, by omega, by simpa using hk, ?_, hname, hne, hmem, ?_⟩
          · rw [← hf]; congr 1; omega
          · intro j hj
            cases j with
            | zero => simp [hp, h2]
            | succ j =>
              rw [List.getElem?_cons_succ, hagree j (by omega)]
              congr 2; omega
        · rw [if_pos h2] at h
          injection h with h
          injection h with e1 e2 e3
          subst e1 e2 e3
          exact ⟨0, e, rfl, List.getElem?_cons_zero, hp, rfl, h2, h1, by intro j hj; omega⟩
      · rw [if_pos h1] at h; cases h

/-- A missing-case error of the walk names the profile function at the first position where
the walk stops; the positions before agree. -/
theorem checkLoop_missingCase_at (casesInFile : List String)
    (casesInProfile : List testFunc) (name : String) :
    ∀ (rem : List String) (index : Nat),
      checkLoop casesInFile casesInProfile rem index = .fail (Error.missingCase name) →
      ∃ k f, k < rem.length ∧ casesInProfile[index + k]? = some f ∧ f.Name = name ∧
        ¬ name ∈ casesInFile ∧
        ∀ j, j < k → rem[j]? = (casesInProfile[index + j]?).map testFunc.Name := by
  intro rem
  induction rem with
  | nil => intro index h; cases h
  | cons x rem ih =>
    intro index h
    cases hp : casesInProfile[index]? with
    | none => rw [checkLoop, hp] at h; cases h
    | some e =>
      rw [checkLoop_cons _ _ _ _ _ e hp] at h
      by_cases h1 : e.Name ∈ casesInFile
      · rw [if_neg (not_not.2 h1)] at h
        by_cases h2 : x = e.Name
        · rw [if_neg (not_not.2 h2)] at h
          obtain ⟨k, f, hk, hf, hname, hmem, hagree⟩ := ih _ h
          refine ⟨k + 1, f, by simp; omega, ?_, hname, hmem, ?_⟩
          · rw [← hf]; congr 1; omega
          · intro j hj
            cases j with
            | zero => simp [hp, h2]
            | succ j =>
              rw [List.getElem?_cons_succ, hagree j (by omega)]
              congr 2; omega
        · rw [if_pos h2] at h; cases h
      · rw [if_pos h1] at h
        injection h with h
        injection h with h
        subst h
        exact ⟨0, e, by simp, hp, rfl, h1, by intro j hj; omega⟩

/-- The walk stays in bounds when the profile has a position for every key left. -/
theorem checkLoop_in_bounds (casesInFile : List String) (casesInProfile : List testFunc) :
    ∀ (rem : List String) (index : Nat), rem.length + index ≤ casesInProfile.length →
      checkLoop casesInFile casesInProfile rem index ≠ .indexOutOfRange := by
  intro rem
  induction rem with
  | nil => intro index _ h; cases h
  | cons x rem ih =>
    intro index hlen h
    rw [List.length_cons] at hlen
    have hidx : index < casesInProfile.length := by omega
    rw [checkLoop_cons _ _ _ _ _ _ (List.getElem?_eq_getElem hidx)] at h
    by_cases h1 : casesInProfile[index].Name ∈ casesInFile
    · rw [if_neg (not_not.2 h1)] at h
      by_cases h2 : x = casesInProfile[index].Name
      · rw [if_neg (not_not.2 h2)] at h
        exact ih (index + 1) (by omega) h
      · rw [if_pos h2] at h; cases h
    · rw [if_pos h1] at h; cases h

theorem checkTestCases_walk (casesInFile : List String) (casesInProfile : List testFunc)
    (e : Error) (hne : ∀ x y, e ≠ Error.countMismatch x y)
    (h : checkTestCases casesInFile casesInProfile = .fail e) :
    casesInFile.length = casesInProfile.length ∧
      checkLoop casesInFile casesInProfile casesInFile 0 = .fail e := by
  unfold checkTestCases at h
  by_cases hlen : casesInFile.length = casesInProfile.length
  · rw [if_neg (not_not.2 hlen)] at h
    exact ⟨hlen, h⟩
  · rw [if_pos hlen] at h
    injection h with h
    exact absurd h.symm (hne _ _)

/-- Whatever the fuel, a pop loop that exits either emptied the stack without touching the
cursor and the current list, or adopted a non-empty list with the cursor at 0. -/
theorem popLoop_result (fuel : Nat) (idx : Nat) (cases : List testCase) :
    ∀ (stack : List testCategory) (it : iterator),
      popLoop fuel ⟨idx, cases, stack⟩ = some it →
      it = ⟨idx, cases, []⟩ ∨ (it.Index = 0 ∧ 0 < it.Cases.length) := by
  induction fuel with
  | zero =>
    intro stack it h
    cases stack with
    | nil => rw [popLoop_nil] at h; exact Or.inl (Option.some.inj h).symm
    | cons c rest => rw [popLoop] at h; cases h
  | succ fuel ih =>
    intro stack it h
    cases stack with
    | nil => rw [popLoop_nil] at h; exact Or.inl (Option.some.inj h).symm
    | cons c rest =>
      rw [popLoop_cons] at h
      by_cases hc : c.Cases.length > 0
      · rw [if_pos hc] at h
        have := Option.some.inj h
        subst this
        exact Or.inr ⟨rfl, hc⟩
      · rw [if_neg hc] at h
        exact ih _ it h

/-- A call of `next` that returns an error returns the not-found error, with the stack
emptied, the current list and the cursor untouched and the cursor at or past the end. -/
theorem next_error (fuel : Nat) (it it' : iterator) (e : Error)
    (h : it.next fuel = some (.error e, it')) :
    e = Error.notFound ∧ it' = { it with Stacks := [] } ∧ it.Cases.length ≤ it.Index := by
  obtain ⟨idx, cases, stack⟩ := it
  by_cases hex : cases.length = 0 ∨ idx ≥ cases.length
  · have hle : cases.length ≤ idx := by rcases hex with h0 | h1 <;> omega
    cases hpop : popLoop fuel ⟨idx, cases, stack⟩ with
    | none =>
      have hnext : iterator.next fuel ⟨idx, cases, stack⟩ = none := by
        simp only [iterator.next, hex, if_true, hpop]
      rw [hnext] at h; cases h
    | some it1 =>
      have hnext : iterator.next fuel ⟨idx, cases, stack⟩ =
          if h : it1.Cases.length > 0 ∧ it1.Index < it1.Cases.length then
            some (.ok (it1.Cases.get ⟨it1.Index, h.2⟩), { it1 with Index := it1.Index + 1 })
          else some (.error Error.notFound, it1) := by
        simp only [iterator.next, hex, if_true, hpop]
      rw [hnext] at h
      rcases popLoop_result fuel idx cases stack it1 hpop with h1 | ⟨h1, h2⟩
      · subst h1
        have hno : ¬ (cases.length > 0 ∧ idx < cases.length) := by
          rintro ⟨_, hb⟩; omega
        rw [dif_neg hno] at h
        simp only [Option.some.injEq, Prod.mk.injEq, Except.error.injEq] at h
        exact ⟨h.1.symm, h.2.symm, hle⟩
      · have hyes : it1.Cases.length > 0 ∧ it1.Index < it1.Cases.length := ⟨h2, by omega⟩
        rw [dif_pos hyes] at h
        simp at h
  · have hlt : idx < cases.length := by
      by_contra hcon; exact hex (Or.inr (by omega))
    have hnext : iterator.next fuel ⟨idx, cases, stack⟩ =
        some (.ok (cases.get ⟨idx, hlt⟩), ⟨idx + 1, cases, stack⟩) := by
      have hyes : cases.length > 0 ∧ idx < cases.length := ⟨by omega, hlt⟩
      simp only [iterator.next, hex, if_false, dif_pos hyes]
    rw [hnext] at h
    simp at h

/-- An iterator with an empty stack and its cursor at or past the end of its list reports
exhaustion and is left as it is, whatever the fuel. -/
theorem next_exhausted (fuel : Nat) (idx : Nat) (cases : List testCase)
    (hle : cases.length ≤ idx) :
    iterator.next fuel ⟨idx, cases, []⟩ = some (.error Error.notFound, ⟨idx, cases, []⟩) := by
  have hex : cases.length = 0 ∨ idx ≥ cases.length := Or.inr hle
  have hno : ¬ (cases.length > 0 ∧ idx < cases.length) := by
    rintro ⟨_, hb⟩; omega
  simp only [iterator.next, hex, if_true, popLoop_nil, dif_neg hno]

theorem nextCalls_exhausted (fuel : Nat) (idx : Nat) (cases : List testCase)
    (hle : cases.length ≤ idx) (k : Nat) :
    nextCalls fuel k ⟨idx, cases, []⟩ =
      some (List.replicate k (.error Error.notFound), ⟨idx, cases, []⟩) := by
  induction k with
  | zero => rfl
  | succ k ih =>
    rw [nextCalls, next_exhausted fuel idx cases hle]
    simp only [ih, Option.map_some', List.replicate_succ]

/-- With fuel for the category nodes on the stack, as many calls of `next` as there are
cases left succeed with those cases in order, and one more call reports exhaustion. -/
theorem nextCalls_spec (fuel : Nat) :
    ∀ (l : List testCase) (it : iterator), remaining it = l →
      nodesCategories it.Stacks ≤ fuel →
      ∃ it', nextCalls fuel (l.length + 1) it =
        some (l.map .ok ++ [.error Error.notFound], it') := by
  intro l
  induction l with
  | nil =>
    intro it hrem hfuel
    refine ⟨{ it with Stacks := [] }, ?_⟩
    rw [List.length_nil, nextCalls, (next_spec fuel it hfuel).1 hrem]
    rfl
  | cons c l ih =>
    intro it hrem hfuel
    obtain ⟨it1, hnext, hrem1, hnodes⟩ := (next_spec fuel it hfuel).2 c l hrem
    obtain ⟨it', hcalls⟩ := ih it1 hrem1 (by omega)
    refine ⟨it', ?_⟩
    rw [List.length_cons, nextCalls, hnext]
    simp only [hcalls, Option.map_some', List.map_cons, List.cons_append]

mutual
/-- The flattening of a category tree has as many cases as its nodes together. -/
theorem length_flatCategory : ∀ c : testCategory,
    (flatCategory c).length = ((allCategory c).map (fun p => p.Cases.length)).sum
  | .mk name description cases categories => by
    have ih := length_flatCategories categories
    rw [flatCategory_eq, allCategory_eq, List.length_append, List.map_cons, List.sum_cons]
    simp only [testCategory.Cases, testCategory.Categories, ih]
/-- The flattening of a forest has as many cases as its nodes together. -/
theorem length_flatCategories : ∀ cs : List testCategory,
    (flatCategories cs).length = ((allCategories cs).map (fun p => p.Cases.length)).sum
  | [] => rfl
  | c :: cs => by
    rw [flatCategories_cons, allCategories_cons, List.length_append, List.map_append,
      List.sum_append, length_flatCategory c, length_flatCategories cs]
end

theorem length_flat (utp : utProfile) :
    (flat utp.Cases utp.Categories).length = totalCases utp := by
  rw [flat, List.length_append, length_flatCategories, totalCases]

theorem nodes_pop_lt (c : testCategory) (rest : List testCategory) :
    nodesCategories (pushReversed c.Categories rest) < nodesCategories (c :: rest) := by
  rw [pushReversed_eq_append, nodesCategories_append, nodesCategories_cons, nodesCategory_eq]
  omega

theorem next_returns (fuel : Nat) (it : iterator) (h : nodesCategories it.Stacks ≤ fuel) :
    ∃ r it', it.next fuel = some (r, it') ∧
      nodesCategories it'.Stacks ≤ nodesCategories it.Stacks := by
  obtain ⟨hnil, hcons⟩ := next_spec fuel it h
  cases hrem : remaining it with
  | nil => exact ⟨_, _, hnil hrem, by simp [nodesCategories]⟩
  | cons c r =>
    obtain ⟨it', hnext, _, hnodes⟩ := hcons c r hrem
    exact ⟨_, it', hnext, hnodes⟩

theorem passedBefore_cons_none {ε : Type} (validate : String → Option ε) (p : String)
    (ps : List String) (h : validate p = none) :
    passedBefore validate (p :: ps) = p :: passedBefore validate ps ∧
      firstFailure validate (p :: ps) = firstFailure validate ps := by
  simp only [passedBefore, firstFailure, h, and_self]

theorem passedBefore_cons_some {ε : Type} (validate : String → Option ε) (p : String)
    (ps : List String) (err : ε) (h : validate p = some err) :
    passedBefore validate (p :: ps) = [] ∧ firstFailure validate (p :: ps) = some err := by
  simp only [passedBefore, firstFailure, h, and_self]

/-- The range loop of `ValidateDir` over a listing: the profile paths that precede the
first failing one are appended, and the error is the one of that first failure. -/
theorem rangeFileInfos_spec {ε : Type} (join : String → String → String)
    (validate : String → Option ε) (dir : String) :
    ∀ (fileInfos : List FileInfo) (validatedProfile : List String),
      rangeFileInfos join validate dir fileInfos validatedProfile =
        (validatedProfile ++ passedBefore validate
            ((fileInfos.filter isValidProfile).map (fun info => join dir info.Name)),
          (firstFailure validate
            ((fileInfos.filter isValidProfile).map (fun info => join dir info.Name))).map
              DirError.validation) := by
  intro fileInfos
  induction fileInfos with
  | nil => intro acc; simp [rangeFileInfos, passedBefore, firstFailure]
  | cons info rest ih =>
    intro acc
    by_cases hv : isValidProfile info = true
    · rw [rangeFileInfos, if_neg (not_not.2 hv), List.filter_cons_of_pos hv, List.map_cons]
      cases hval : validate (join dir info.Name) with
      | none =>
        obtain ⟨h1, h2⟩ := passedBefore_cons_none validate _
          ((rest.filter isValidProfile).map (fun info => join dir info.Name)) hval
        simp only [hval, ih, h1, h2, List.append_assoc, List.singleton_append]
      | some err =>
        obtain ⟨h1, h2⟩ := passedBefore_cons_some validate _
          ((rest.filter isValidProfile).map (fun info => join dir info.Name)) err hval
        simp only [hval, h1, h2, List.append_nil, Option.map_some']
    · rw [rangeFileInfos, if_pos hv, List.filter_cons_of_neg hv, ih]

/-- The walk of `ValidateDir` over visits without access error. -/
theorem Walk_spec {ε : Type} (validate : String → Option ε) :
    ∀ (entries : List (String × FileInfo)) (validatedProfile : List String),
      Walk validate (entries.map (fun e => WalkVisit.entry e.1 e.2)) validatedProfile =
        (validatedProfile ++ passedBefore validate
            ((entries.filter (fun e => isValidProfile e.2)).map (fun e => e.1)),
          (firstFailure validate
            ((entries.filter (fun e => isValidProfile e.2)).map (fun e => e.1))).map
              DirError.validation) := by
  intro entries
  induction entries with
  | nil => intro acc; simp [Walk, passedBefore, firstFailure]
  | cons e rest ih =>
    intro acc
    by_cases hv : isValidProfile e.2 = true
    · rw [List.map_cons, Walk, walkFn, if_neg (not_not.2 hv),
        List.filter_cons_of_pos (by simpa using hv), List.map_cons]
      cases hval : validate e.1 with
      | none =>
        obtain ⟨h1, h2⟩ := passedBefore_cons_none validate _
          ((rest.filter (fun e => isValidProfile e.2)).map (fun e => e.1)) hval
        simp only [ih, h1, h2, List.append_assoc, List.singleton_append]
      | some err =>
        obtain ⟨h1, h2⟩ := passedBefore_cons_some validate _
          ((rest.filter (fun e => isValidProfile e.2)).map (fun e => e.1)) err hval
        simp only [h1, h2, List.append_nil, Option.map_some']
    · rw [List.map_cons, Walk, walkFn, if_pos hv,
        List.filter_cons_of_neg (by simpa using hv)]
      simp only [ih]

/-- What `passedBefore` and `firstFailure` compute: the list splits behind the paths that
passed, and what follows is empty, or starts with the path whose error is reported. -/
theorem passedBefore_split {ε : Type} (validate : String → Option ε) :
    ∀ profiles : List String, ∃ rest,
      profiles = passedBefore validate profiles ++ rest ∧
      (∀ p ∈ passedBefore validate profiles, validate p = none) ∧
      ((rest = [] ∧ firstFailure validate profiles = none) ∨
        ∃ p tl err, rest = p :: tl ∧ validate p = some err ∧
          firstFailure validate profiles = some err) := by
  intro profiles
  induction profiles with
  | nil => exact ⟨[], rfl, (by intro p hp; cases hp), Or.inl ⟨rfl, rfl⟩⟩
  | cons p ps ih =>
    cases hval : validate p with
    | none =>
      obtain ⟨h1, h2⟩ := passedBefore_cons_none validate p ps hval
      obtain ⟨rest, hsplit, hpass, hor⟩ := ih
      refine ⟨rest, by rw [h1, List.cons_append, ← hsplit], ?_, by rw [h2]; exact hor⟩
      intro q hq
      rw [h1] at hq
      rcases List.mem_cons.1 hq with h | h
      · rw [h]; exact hval
      · exact hpass q h
    | some err =>
      obtain ⟨h1, h2⟩ := passedBefore_cons_some validate p ps err hval
      refine ⟨p :: ps, by rw [h1]; rfl, (by rw [h1]; intro q hq; cases hq), ?_⟩
      exact Or.inr ⟨p, ps, err, rfl, hval, h2⟩

theorem firstFailure_ne_none_iff {ε : Type} (validate : String → Option ε) :
    ∀ profiles : List String,
      firstFailure validate profiles ≠ none ↔ ∃ p ∈ profiles, validate p ≠ none := by
  intro profiles
  induction profiles with
  | nil => simp [firstFailure]
  | cons p ps ih =>
    cases hval : validate p with
    | none =>
      rw [(passedBefore_cons_none validate p ps hval).2, ih]
      simp [hval]
    | some err =>
      rw [(passedBefore_cons_some validate p ps err hval).2]
      simp [hval]

theorem passedBefore_all {ε : Type} (validate : String → Option ε) :
    ∀ profiles : List String, (∀ p ∈ profiles, validate p = none) →
      passedBefore validate profiles = profiles ∧ firstFailure validate profiles = none := by
  intro profiles
  induction profiles with
  | nil => intro _; exact ⟨rfl, rfl⟩
  | cons p ps ih =>
    intro h
    obtain ⟨h1, h2⟩ := passedBefore_cons_none validate p ps (h p (List.mem_cons_self _ _))
    obtain ⟨i1, i2⟩ := ih (fun q hq => h q (List.mem_cons_of_mem _ hq))
    rw [h1, h2, i1, i2]
    exact ⟨rfl, rfl⟩

theorem passedBefore_congr {ε : Type} (validate validate' : String → Option ε) :
    ∀ profiles : List String, (∀ p ∈ profiles, validate p = validate' p) →
      passedBefore validate profiles = passedBefore validate' profiles ∧
        firstFailure validate profiles = firstFailure validate' profiles := by
  intro profiles
  induction profiles with
  | nil => intro _; exact ⟨rfl, rfl⟩
  | cons p ps ih =>
    intro h
    have hp := h p (List.mem_cons_self _ _)
    obtain ⟨i1, i2⟩ := ih (fun q hq => h q (List.mem_cons_of_mem _ hq))
    simp only [passedBefore, firstFailure, ← hp, i1, i2, and_self]

theorem ValidateDir_listing {ε : Type} (join : String → String → String)
    (validate : String → Option ε) (readDir : String → Except ε (List FileInfo))
    (walk : String → List (WalkVisit ε)) (dir : String) (fileInfos : List FileInfo)
    (h : readDir dir = .ok fileInfos) :
    ValidateDir join validate readDir walk dir false =
      (passedBefore validate
          ((fileInfos.filter isValidProfile).map (fun info => join dir info.Name)),
        (firstFailure validate
          ((fileInfos.filter isValidProfile).map (fun info => join dir info.Name))).map
            DirError.validation) := by
  simp only [ValidateDir, Bool.false_eq_true, if_false, h, rangeFileInfos_spec,
    List.nil_append]

theorem ValidateDir_walk {ε : Type} (join : String → String → String)
    (validate : String → Option ε) (readDir : String → Except ε (List FileInfo))
    (walk : String → List (WalkVisit ε)) (dir : String)
    (entries : List (String × FileInfo))
    (h : walk dir = entries.map (fun e => WalkVisit.entry e.1 e.2)) :
    ValidateDir join validate readDir walk dir true =
      (passedBefore validate
          ((entries.filter (fun e => isValidProfile e.2)).map (fun e => e.1)),
        (firstFailure validate
          ((entries.filter (fun e => isValidProfile e.2)).map (fun e => e.1))).map
            (fun err => DirError.walking dir (DirError.validation err))) := by
  simp only [ValidateDir, if_true, h, Walk_spec, List.nil_append]
  cases firstFailure validate
    ((entries.filter (fun e => isValidProfile e.2)).map (fun e => e.1)) <;> rfl

theorem HasSuffix_iff (s suffix : String) :
    HasSuffix s suffix = true ↔ ∃ stem : String, s = stem ++ suffix := by
  unfold HasSuffix
  simp only [Bool.and_eq_true, decide_eq_true_eq, beq_iff_eq, String.length]
  constructor
  · rintro ⟨_, hdrop⟩
    refine ⟨⟨s.data.take (s.data.length - suffix.data.length)⟩, ?_⟩
    apply String.ext
    have hsplit := (List.take_append_drop (s.data.length - suffix.data.length) s.data).symm
    rw [hdrop] at hsplit
    rw [String.data_append]
    exact hsplit
  · rintro ⟨stem, rfl⟩
    rw [String.data_append, List.length_append]
    refine ⟨by omega, ?_⟩
    rw [Nat.add_sub_cancel, List.drop_left]

theorem walkedProfiles_dir (join : String → String → String) (dir name : String)
    (children : List FsNode) :
    walkedProfiles (treeEntries join dir (.dir name children)) =
      walkedProfiles (childEntries join dir children) := by
  rw [treeEntries, walkedProfiles, List.filter_cons_of_neg]
  · rfl
  · simp [isValidProfile]

theorem isValidProfile_iff (info : FileInfo) :
    isValidProfile info = true ↔
      info.IsDir = false ∧
        ((∃ stem : String, info.Name = stem ++ "_utprofile.yml") ∨
          ∃ stem : String, info.Name = stem ++ "_utprofile.yaml") := by
  unfold isValidProfile
  cases hdir : info.IsDir with
  | true => simp
  | false => simp [HasSuffix_iff]

theorem listedProfiles_skip (join : String → String → String) (dir : String)
    (before after : List FileInfo) (info : FileInfo) (h : isValidProfile info = false) :
    listedProfiles join dir (before ++ info :: after) =
      listedProfiles join dir (before ++ after) := by
  unfold listedProfiles
  rw [List.filter_append, List.filter_cons_of_neg (by simp [h]), List.filter_append]

theorem walkedProfiles_skip (before after : List (String × FileInfo))
    (e : String × FileInfo) (h : isValidProfile e.2 = false) :
    walkedProfiles (before ++ e :: after) = walkedProfiles (before ++ after) := by
  unfold walkedProfiles
  rw [List.filter_append, List.filter_cons_of_neg (by simp [h]), List.filter_append]

/-! ## The claims -/

/-- Claim C1. With enough fuel, the test cases returned by successive calls of `next` on
`utp.iterator()`, up to its first error, are exactly the recursive flattening
`flat(cases, categories) = cases ++ concat [flat(c.Cases, c.Categories) | c in categories]`;
and when every kind is recognised, `generateTestFunctions` returns exactly the expected
functions of that flattening, in that order, without error. -/
theorem C1_iterator_refines_flat (lower : Char → Char) (utp : utProfile) (fuel : Nat)
    (hfuel : fuelBound utp ≤ fuel) :
    drain fuel utp.iterator = some (flat utp.Cases utp.Categories) ∧
    flat utp.Cases utp.Categories =
      utp.Cases ++ (utp.Categories.map (fun c => flat c.Cases c.Categories)).flatten ∧
    ((∀ tc ∈ flat utp.Cases utp.Categories, validType lower tc) →
      generateTestFunctions lower fuel utp =
        some ((flat utp.Cases utp.Categories).map (expectedFunction lower), none)) :=
  ⟨drain_iterator utp fuel hfuel, flat_eq_concat _ _,
    generate_all_valid lower utp fuel hfuel⟩

theorem C1_iterator_refines_flat_witness :
    fuelBound profileNested ≤ 12 ∧
    (∀ tc ∈ flat profileNested.Cases profileNested.Categories, validType Char.toLower tc) ∧
    drain 12 profileNested.iterator =
      some (flat profileNested.Cases profileNested.Categories) ∧
    generateTestFunctions Char.toLower 12 profileNested =
      some ((flat profileNested.Cases profileNested.Categories).map
        (expectedFunction Char.toLower), none) :=
  ⟨by decide, by decide,
    (C1_iterator_refines_flat Char.toLower profileNested 12 (by decide)).1,
    (C1_iterator_refines_flat Char.toLower profileNested 12 (by decide)).2.2 (by decide)⟩

/-- Claim C2. `checkTestCases` returns success if and only if the names of the actual
collection, in declaration order, are exactly the expected names in order (same names,
same order, same count); in particular matching the names of any expected sequence against
that sequence succeeds. This holds for every actual collection, duplicate-free or not. -/
theorem C2_success_iff_same_sequence :
    (∀ (casesInFile : List String) (casesInProfile : List testFunc),
      checkTestCases casesInFile casesInProfile = .ok ↔
        casesInFile = casesInProfile.map testFunc.Name) ∧
    (∀ casesInProfile : List testFunc,
      checkTestCases (casesInProfile.map testFunc.Name) casesInProfile = .ok) :=
  ⟨checkTestCases_ok_iff, checkTestCases_self⟩

theorem C2_success_iff_same_sequence_witness :
    checkTestCases ["TestAlpha", "BenchmarkBeta"]
        [⟨"TestAlpha", "test", ""⟩, ⟨"BenchmarkBeta", "benchmark", ""⟩] = .ok ∧
    checkTestCases
        (([⟨"TestAlpha", "test", ""⟩, ⟨"BenchmarkBeta", "benchmark", ""⟩] :
          List testFunc).map testFunc.Name)
        [⟨"TestAlpha", "test", ""⟩, ⟨"BenchmarkBeta", "benchmark", ""⟩] = .ok :=
  ⟨(C2_success_iff_same_sequence.1 ["TestAlpha", "BenchmarkBeta"]
      [⟨"TestAlpha", "test", ""⟩, ⟨"BenchmarkBeta", "benchmark", ""⟩]).2 (by decide),
    C2_success_iff_same_sequence.2
      [⟨"TestAlpha", "test", ""⟩, ⟨"BenchmarkBeta", "benchmark", ""⟩]⟩

/-- Claim C3. For a case whose kind is empty or lower-cases to `"test"`, the `switch` of
`generateTestFunctions` derives the name `"Test" + case.name` with kind `"test"`; for a
kind that lower-cases to `"benchmark"` it derives `"Benchmark" + case.name` with kind
`"benchmark"`; the description is the one of the case. With enough fuel, for every such
case reached by the traversal (no unrecognised kind before it), the function returned by
`generateTestFunctions` at the position of the case is that derived function. -/
theorem C3_derived_function (lower : Char → Char) (tc : testCase) :
    ((tc.Type_ = "" ∨ ToLower lower tc.Type_ = "test") →
      switchType lower tc = .ok
        { Name := "Test" ++ tc.Name, Type_ := "test", Description := tc.Description }) ∧
    (ToLower lower tc.Type_ = "benchmark" →
      switchType lower tc = .ok
        { Name := "Benchmark" ++ tc.Name, Type_ := "benchmark",
          Description := tc.Description }) ∧
    (∀ (utp : utProfile) (fuel : Nat) (pre post : List testCase),
      fuelBound utp ≤ fuel → drain fuel utp.iterator = some (pre ++ tc :: post) →
      (∀ x ∈ pre, validType lower x) →
      ∃ fs err, generateTestFunctions lower fuel utp = some (fs, err) ∧
        ((tc.Type_ = "" ∨ ToLower lower tc.Type_ = "test") →
          fs[pre.length]? = some
            { Name := "Test" ++ tc.Name, Type_ := "test", Description := tc.Description }) ∧
        (ToLower lower tc.Type_ = "benchmark" →
          fs[pre.length]? = some
            { Name := "Benchmark" ++ tc.Name, Type_ := "benchmark",
              Description := tc.Description })) := by
  refine ⟨?_, ?_, ?_⟩
  · intro h
    obtain ⟨hv, he⟩ := switchType_test lower tc h
    rw [switchType_valid lower tc hv, he]
  · intro h
    obtain ⟨hv, he⟩ := switchType_benchmark lower tc h
    rw [switchType_valid lower tc hv, he]
  · intro utp fuel pre post hfuel hdrain hpre
    have hflat := flat_of_drain utp fuel hfuel _ hdrain
    by_cases hv : validType lower tc
    · obtain ⟨fs, err, hgen, hat⟩ := generate_at lower utp fuel hfuel pre post tc hflat hpre hv
      refine ⟨fs, err, hgen, ?_, ?_⟩
      · intro h; rw [hat, (switchType_test lower tc h).2]
      · intro h; rw [hat, (switchType_benchmark lower tc h).2]
    · refine ⟨_, _, generate_first_invalid lower utp fuel hfuel pre post tc hflat hpre hv, ?_, ?_⟩
      · intro h; exact absurd (switchType_test lower tc h).1 hv
      · intro h; exact absurd (switchType_benchmark lower tc h).1 hv

theorem C3_derived_function_witness :
    (ToLower Char.toLower (testCase.mk "A2" "Benchmark" "nested").Type_ = "benchmark") ∧
    fuelBound profileNested ≤ 12 ∧
    drain 12 profileNested.iterator =
      some ([⟨"Top", "", ""⟩, ⟨"A1", "TEST", ""⟩] ++ ⟨"A2", "Benchmark", "nested"⟩ ::
        [⟨"B1", "", ""⟩, ⟨"B2", "test", ""⟩]) ∧
    (∀ x ∈ [(⟨"Top", "", ""⟩ : testCase), ⟨"A1", "TEST", ""⟩], validType Char.toLower x) ∧
    switchType Char.toLower ⟨"A2", "Benchmark", "nested"⟩ =
      .ok { Name := "Benchmark" ++ "A2", Type_ := "benchmark", Description := "nested" } ∧
    ∃ fs err, generateTestFunctions Char.toLower 12 profileNested = some (fs, err) ∧
      fs[2]? = some
        { Name := "Benchmark" ++ "A2", Type_ := "benchmark", Description := "nested" } := by
  have h := C3_derived_function Char.toLower ⟨"A2", "Benchmark", "nested"⟩
  have hb : ToLower Char.toLower (testCase.mk "A2" "Benchmark" "nested").Type_ = "benchmark" := by
    decide
  refine ⟨hb, by decide, by decide, by decide, h.2.1 hb, ?_⟩
  obtain ⟨fs, err, hgen, _, hbench⟩ :=
    h.2.2 profileNested 12 [⟨"Top", "", ""⟩, ⟨"A1", "TEST", ""⟩]
      [⟨"B1", "", ""⟩, ⟨"B2", "test", ""⟩] (by decide) (by decide) (by decide)
  exact ⟨fs, err, hgen, hbench hb⟩

/-- Claim C4. With enough fuel, `generateTestFunctions` returns an error if and only if
some case of the profile tree has a kind that, lower-cased, is none of `""`, `"test"`,
`"benchmark"`; the error carries the kind string, as written, of the first such case in
traversal order, and the functions returned with it are those of the cases before that
case only: the offending case is not skipped and nothing after it is processed. -/
theorem C4_invalid_kind_error (lower : Char → Char) (utp : utProfile) (fuel : Nat)
    (hfuel : fuelBound utp ≤ fuel) :
    ∃ fs err, generateTestFunctions lower fuel utp = some (fs, err) ∧
      (err ≠ none ↔ ∃ tc, utp.hasCase tc ∧ ¬ validType lower tc) ∧
      (∀ pre c post, drain fuel utp.iterator = some (pre ++ c :: post) →
        (∀ x ∈ pre, validType lower x) → ¬ validType lower c →
        err = some (Error.invalidType c.Type_) ∧
          fs = pre.map (expectedFunction lower)) := by
  rcases generate_cases lower utp fuel hfuel with ⟨hall, hgen⟩ | ⟨pre, c, post, h1, h2, h3, hgen⟩
  · refine ⟨_, _, hgen, ?_, ?_⟩
    · constructor
      · intro h; exact absurd rfl h
      · rintro ⟨tc, htc, hinv⟩
        exact absurd (hall tc ((mem_flat_iff utp tc).2 htc)) hinv
    · intro pre c post hdrain _ hc
      have hflat := flat_of_drain utp fuel hfuel _ hdrain
      exact absurd (hall c (by rw [hflat]; simp)) hc
  · refine ⟨_, _, hgen, ?_, ?_⟩
    · constructor
      · intro _
        exact ⟨c, (mem_flat_iff utp c).1 (by rw [h1]; simp), h3⟩
      · intro _ h; cases h
    · intro pre' c' post' hdrain hpre' hc'
      have hflat := flat_of_drain utp fuel hfuel _ hdrain
      rw [h1] at hflat
      obtain ⟨e1, e2, _⟩ := first_invalid_unique lower pre pre' c c' post post' hflat h2 hpre' h3 hc'
      rw [e1, e2]
      exact ⟨rfl, rfl⟩

theorem C4_invalid_kind_error_witness :
    fuelBound profileAlphaUnknown ≤ 5 ∧
    drain 5 profileAlphaUnknown.iterator =
      some ([⟨"Alpha", "", ""⟩] ++ ⟨"X", "Unknown", ""⟩ :: [⟨"Omega", "test", ""⟩]) ∧
    (∀ x ∈ [(⟨"Alpha", "", ""⟩ : testCase)], validType Char.toLower x) ∧
    ¬ validType Char.toLower ⟨"X", "Unknown", ""⟩ ∧
    ∃ fs err, generateTestFunctions Char.toLower 5 profileAlphaUnknown = some (fs, err) ∧
      err = some (Error.invalidType "Unknown") ∧
      fs = [(⟨"Alpha", "", ""⟩ : testCase)].map (expectedFunction Char.toLower) := by
  obtain ⟨fs, err, hgen, _, hfirst⟩ :=
    C4_invalid_kind_error Char.toLower profileAlphaUnknown 5 (by decide)
  exact ⟨by decide, by decide, by decide, by decide, fs, err, hgen,
    hfirst [⟨"Alpha", "", ""⟩] ⟨"X", "Unknown", ""⟩ [⟨"Omega", "test", ""⟩]
      (by decide) (by decide) (by decide)⟩

/-- Claim C5. When the size of the actual collection differs from the length of the
expected sequence, `checkTestCases` fails with the count-mismatch error carrying both
counts (actual size, expected length), whatever the contents; and a count-mismatch error
is returned only when the sizes differ, with exactly those counts. -/
theorem C5_count_mismatch (casesInFile : List String) (casesInProfile : List testFunc) :
    (casesInFile.length ≠ casesInProfile.length →
      checkTestCases casesInFile casesInProfile =
        .fail (Error.countMismatch casesInFile.length casesInProfile.length)) ∧
    (∀ x y, checkTestCases casesInFile casesInProfile = .fail (Error.countMismatch x y) →
      casesInFile.length ≠ casesInProfile.length ∧ x = casesInFile.length ∧
        y = casesInProfile.length) := by
  constructor
  · intro h
    unfold checkTestCases
    rw [if_pos h]
  · intro x y h
    unfold checkTestCases at h
    by_cases hlen : casesInFile.length = casesInProfile.length
    · rw [if_neg (not_not.2 hlen)] at h
      exact absurd h (checkLoop_ne_countMismatch _ _ x y _ _)
    · rw [if_pos hlen] at h
      injection h with h
      injection h with h1 h2
      exact ⟨hlen, h1.symm, h2.symm⟩

theorem C5_count_mismatch_witness :
    (["TestAlpha"] : List String).length ≠
      ([⟨"TestAlpha", "test", ""⟩, ⟨"BenchmarkBeta", "benchmark", ""⟩] : List testFunc).length ∧
    checkTestCases ["TestAlpha"]
        [⟨"TestAlpha", "test", ""⟩, ⟨"BenchmarkBeta", "benchmark", ""⟩] =
      .fail (Error.countMismatch 1 2) ∧
    (["TestAlpha"] : List String).length ≠
      ([⟨"TestAlpha", "test", ""⟩, ⟨"BenchmarkBeta", "benchmark", ""⟩] : List testFunc).length ∧
    1 = (["TestAlpha"] : List String).length ∧
    2 = ([⟨"TestAlpha", "test", ""⟩, ⟨"BenchmarkBeta", "benchmark", ""⟩] :
      List testFunc).length :=
  ⟨by decide,
    (C5_count_mismatch ["TestAlpha"]
      [⟨"TestAlpha", "test", ""⟩, ⟨"BenchmarkBeta", "benchmark", ""⟩]).1 (by decide),
    (C5_count_mismatch ["TestAlpha"]
      [⟨"TestAlpha", "test", ""⟩, ⟨"BenchmarkBeta", "benchmark", ""⟩]).2 1 2 (by decide)⟩

/-- Claim C6. For an actual collection and an expected sequence of equal size, let `i` be
the first (0-based) index where the actual name `a` differs from the expected name; if the
expected name occurs somewhere in the actual collection, `checkTestCases` fails with the
position-mismatch error naming `a`, the expected name and the 1-based position `i + 1`.
Actual `["BenchmarkBeta", "TestAlpha"]` against expected `["TestAlpha", "BenchmarkBeta"]`
gives the position mismatch at position 1 with actual `"BenchmarkBeta"` and expected
`"TestAlpha"`. -/
theorem C6_position_mismatch :
    (∀ (casesInFile : List String) (casesInProfile : List testFunc) (i : Nat) (a : String)
      (e : testFunc), casesInFile.length = casesInProfile.length →
      (∀ j, j < i → casesInFile[j]? = (casesInProfile[j]?).map testFunc.Name) →
      casesInFile[i]? = some a → casesInProfile[i]? = some e → a ≠ e.Name →
      e.Name ∈ casesInFile →
      checkTestCases casesInFile casesInProfile =
        .fail (Error.positionMismatch a e.Name (i + 1))) ∧
    checkTestCases ["BenchmarkBeta", "TestAlpha"]
        [⟨"TestAlpha", "test", ""⟩, ⟨"BenchmarkBeta", "benchmark", ""⟩] =
      .fail (Error.positionMismatch "BenchmarkBeta" "TestAlpha" 1) := by
  refine ⟨?_, by decide⟩
  intro casesInFile casesInProfile i a e hlen hpre ha he hne hmem
  rw [checkTestCases_first_diff casesInFile casesInProfile i a e hlen hpre ha he hne,
    if_neg (not_not.2 hmem)]

theorem C6_position_mismatch_witness :
    (["TestAlpha", "TestGamma", "BenchmarkBeta"] : List String).Nodup ∧
    checkTestCases ["TestAlpha", "TestGamma", "BenchmarkBeta"]
        [⟨"TestAlpha", "test", ""⟩, ⟨"BenchmarkBeta", "benchmark", ""⟩,
          ⟨"TestGamma", "test", ""⟩] =
      .fail (Error.positionMismatch "TestGamma" "BenchmarkBeta" 2) :=
  ⟨by decide,
    C6_position_mismatch.1 ["TestAlpha", "TestGamma", "BenchmarkBeta"]
      [⟨"TestAlpha", "test", ""⟩, ⟨"BenchmarkBeta", "benchmark", ""⟩, ⟨"TestGamma", "test", ""⟩]
      1 "TestGamma" ⟨"BenchmarkBeta", "benchmark", ""⟩ (by decide)
      (by intro j hj; interval_cases j; decide) (by decide) (by decide) (by decide)
      (by decide)⟩

/-- Claim C7. For an actual collection and an expected sequence of equal size, let `i` be
the first (0-based) index where the actual name differs from the expected name; if the
expected name occurs nowhere in the actual collection, `checkTestCases` fails with the
missing-case error naming that expected name; and a missing-case error is only ever
returned for the name of an expected function that is absent from the actual collection. -/
theorem C7_missing_case (casesInFile : List String) (casesInProfile : List testFunc) :
    (∀ (i : Nat) (a : String) (e : testFunc),
      casesInFile.length = casesInProfile.length →
      (∀ j, j < i → casesInFile[j]? = (casesInProfile[j]?).map testFunc.Name) →
      casesInFile[i]? = some a → casesInProfile[i]? = some e → a ≠ e.Name →
      ¬ e.Name ∈ casesInFile →
      checkTestCases casesInFile casesInProfile = .fail (Error.missingCase e.Name)) ∧
    (∀ name, checkTestCases casesInFile casesInProfile = .fail (Error.missingCase name) →
      ¬ name ∈ casesInFile ∧ ∃ f ∈ casesInProfile, f.Name = name) := by
  constructor
  · intro i a e hlen hpre ha he hne hmem
    rw [checkTestCases_first_diff casesInFile casesInProfile i a e hlen hpre ha he hne,
      if_pos hmem]
  · intro name h
    unfold checkTestCases at h
    by_cases hlen : casesInFile.length = casesInProfile.length
    · rw [if_neg (not_not.2 hlen)] at h
      exact checkLoop_missingCase _ _ name _ _ h
    · rw [if_pos hlen] at h; cases h

theorem C7_missing_case_witness :
    (["TestAlpha", "TestDelta"] : List String).Nodup ∧
    checkTestCases ["TestAlpha", "TestDelta"]
        [⟨"TestAlpha", "test", ""⟩, ⟨"BenchmarkBeta", "benchmark", ""⟩] =
      .fail (Error.missingCase "BenchmarkBeta") ∧
    (¬ "BenchmarkBeta" ∈ ["TestAlpha", "TestDelta"] ∧
      ∃ f ∈ ([⟨"TestAlpha", "test", ""⟩, ⟨"BenchmarkBeta", "benchmark", ""⟩] : List testFunc),
        f.Name = "BenchmarkBeta") :=
  ⟨by decide,
    (C7_missing_case ["TestAlpha", "TestDelta"]
      [⟨"TestAlpha", "test", ""⟩, ⟨"BenchmarkBeta", "benchmark", ""⟩]).1
      1 "TestDelta" ⟨"BenchmarkBeta", "benchmark", ""⟩ (by decide)
      (by intro j hj; interval_cases j; decide) (by decide) (by decide) (by decide)
      (by decide),
    (C7_missing_case ["TestAlpha", "TestDelta"]
      [⟨"TestAlpha", "test", ""⟩, ⟨"BenchmarkBeta", "benchmark", ""⟩]).2
      "BenchmarkBeta" (by decide)⟩

/-- Claim C8. Left-to-right sibling property: for every list of sibling categories of the
profile tree (the top-level list or the list of any category) and every two of its
members `a` listed before `b`, the sequence yielded by the iterator contains the
flattening of the sibling list as one block, in which everything `a` contributes (its own
cases and those of all its nested sub categories) lies wholly before everything `b`
contributes; and so do the functions returned by `generateTestFunctions` when every kind
is recognised. -/
theorem C8_siblings_left_to_right (lower : Char → Char) (utp : utProfile) (fuel : Nat)
    (hfuel : fuelBound utp ≤ fuel) (siblings : List testCategory)
    (hs : utp.hasSiblings siblings) (pre mid post : List testCategory)
    (a b : testCategory) (hsplit : siblings = pre ++ a :: (mid ++ b :: post)) :
    ∃ k1 k3,
      drain fuel utp.iterator =
        some (k1 ++ (flatCategories pre ++ flatCategory a ++ flatCategories mid
          ++ flatCategory b ++ flatCategories post) ++ k3) ∧
      ((∀ tc ∈ flat utp.Cases utp.Categories, validType lower tc) →
        generateTestFunctions lower fuel utp =
          some ((k1 ++ (flatCategories pre ++ flatCategory a ++ flatCategories mid
            ++ flatCategory b ++ flatCategories post) ++ k3).map
              (expectedFunction lower), none)) := by
  obtain ⟨k1, k3, hk⟩ := block_siblings utp siblings hs
  rw [hsplit, flat_siblings] at hk
  refine ⟨k1, k3, ?_, ?_⟩
  · rw [drain_iterator utp fuel hfuel, hk]
  · intro hvalid
    rw [generate_all_valid lower utp fuel hfuel hvalid, hk]

theorem C8_siblings_left_to_right_witness :
    fuelBound profileNested ≤ 12 ∧
    profileNested.hasSiblings profileNested.Categories ∧
    profileNested.Categories =
      [] ++ categoryA :: ([testCategory.mk "Hollow" "" [] []] ++ categoryB :: []) ∧
    (∀ tc ∈ flat profileNested.Cases profileNested.Categories,
      validType Char.toLower tc) ∧
    ∃ k1 k3,
      drain 12 profileNested.iterator =
        some (k1 ++ (flatCategories [] ++ flatCategory categoryA
          ++ flatCategories [testCategory.mk "Hollow" "" [] []]
          ++ flatCategory categoryB ++ flatCategories []) ++ k3) ∧
      generateTestFunctions Char.toLower 12 profileNested =
        some ((k1 ++ (flatCategories [] ++ flatCategory categoryA
          ++ flatCategories [testCategory.mk "Hollow" "" [] []]
          ++ flatCategory categoryB ++ flatCategories []) ++ k3).map
            (expectedFunction Char.toLower), none) := by
  obtain ⟨k1, k3, hdrain, hgen⟩ :=
    C8_siblings_left_to_right Char.toLower profileNested 12 (by decide)
      profileNested.Categories (Or.inl rfl) [] [testCategory.mk "Hollow" "" [] []] []
      categoryA categoryB rfl
  exact ⟨by decide, Or.inl rfl, rfl, by decide, k1, k3, hdrain, hgen (by decide)⟩

/-- Claim C9. Pre-order property: with enough fuel, the sequence yielded by the iterator
is the top-level cases followed by everything flattened from the top-level categories,
and for every category of the tree it contains the own cases of the category as a block
directly followed by everything flattened from its sub categories. The profile with
top-level case `b` and categories `C1` (case `a`), `C2` (case `c`) yields the derived
names of `b`, `a`, `c` in that order. -/
theorem C9_cases_before_categories :
    (∀ (utp : utProfile) (fuel : Nat), fuelBound utp ≤ fuel →
      drain fuel utp.iterator = some (utp.Cases ++ flatCategories utp.Categories) ∧
      ∀ p ∈ allCategories utp.Categories, ∃ l1 l3,
        drain fuel utp.iterator =
          some (l1 ++ p.Cases ++ flatCategories p.Categories ++ l3)) ∧
    generateTestFunctions Char.toLower 6 profileScenario =
      some ([⟨"Testb", "test", ""⟩, ⟨"Testa", "test", ""⟩, ⟨"Testc", "test", ""⟩], none) := by
  refine ⟨?_, by decide⟩
  intro utp fuel hfuel
  refine ⟨drain_iterator utp fuel hfuel, ?_⟩
  intro p hp
  obtain ⟨l1, l3, e⟩ := block_allCategories utp.Categories p hp
  refine ⟨utp.Cases ++ l1, l3, ?_⟩
  rw [drain_iterator utp fuel hfuel, flat, e, flatCategory_eq]
  simp only [List.append_assoc]

theorem C9_cases_before_categories_witness :
    fuelBound profileNested ≤ 12 ∧ categoryA ∈ allCategories profileNested.Categories ∧
    drain 12 profileNested.iterator =
      some (profileNested.Cases ++ flatCategories profileNested.Categories) ∧
    ∃ l1 l3, drain 12 profileNested.iterator =
      some (l1 ++ categoryA.Cases ++ flatCategories categoryA.Categories ++ l3) :=
  ⟨by decide, List.mem_cons_self _ _,
    (C9_cases_before_categories.1 profileNested 12 (by decide)).1,
    (C9_cases_before_categories.1 profileNested 12 (by decide)).2 categoryA
      (List.mem_cons_self _ _)⟩

/-- Claim C10, as stated, fails: a valid case before the case of kind `Unknown` is
returned together with the invalid-type error. -/
theorem C10_counterexample :
    fuelBound profileAlphaUnknown ≤ 5 ∧
    generateTestFunctions Char.toLower 5 profileAlphaUnknown =
      some ([⟨"TestAlpha", "test", ""⟩], some (Error.invalidType "Unknown")) ∧
    ¬ (∀ (fs : List testFunc) (kind : String),
        generateTestFunctions Char.toLower 5 profileAlphaUnknown =
          some (fs, some (Error.invalidType kind)) → fs = []) := by
  refine ⟨by decide, by decide, ?_⟩
  intro h
  have hnil := h [⟨"TestAlpha", "test", ""⟩] "Unknown" (by decide)
  cases hnil

/-- Claim C10, amended. Whenever `generateTestFunctions` fails with the invalid-type
error, it returns, together with the error, the expected functions of the cases that
precede the first case of unrecognised kind in traversal order, and the error carries the
kind of that case; the returned functions are zero exactly when that case is the first of
the traversal. The profile with a single case of kind `Unknown` yields the invalid-type
error for `Unknown` and no functions. -/
theorem C10_functions_before_error :
    (∀ (lower : Char → Char) (utp : utProfile) (fuel : Nat) (fs : List testFunc)
      (kind : String), fuelBound utp ≤ fuel →
      generateTestFunctions lower fuel utp = some (fs, some (Error.invalidType kind)) →
      ∃ pre c post, drain fuel utp.iterator = some (pre ++ c :: post) ∧
        (∀ x ∈ pre, validType lower x) ∧ ¬ validType lower c ∧ c.Type_ = kind ∧
        fs = pre.map (expectedFunction lower) ∧ (fs = [] ↔ pre = [])) ∧
    generateTestFunctions Char.toLower 2 profileUnknown =
      some ([], some (Error.invalidType "Unknown")) := by
  refine ⟨?_, by decide⟩
  intro lower utp fuel fs kind hfuel hres
  rcases generate_cases lower utp fuel hfuel with ⟨_, hgen⟩ | ⟨pre, c, post, h1, h2, h3, hgen⟩
  · rw [hgen] at hres; cases hres
  · rw [hgen] at hres
    simp only [Option.some.injEq, Prod.mk.injEq, Error.invalidType.injEq] at hres
    obtain ⟨hfs, hk⟩ := hres
    refine ⟨pre, c, post, by rw [drain_iterator utp fuel hfuel, h1], h2, h3, hk, hfs.symm, ?_⟩
    rw [← hfs, List.map_eq_nil_iff]

theorem C10_functions_before_error_witness :
    fuelBound profileAlphaUnknown ≤ 5 ∧
    generateTestFunctions Char.toLower 5 profileAlphaUnknown =
      some ([⟨"TestAlpha", "test", ""⟩], some (Error.invalidType "Unknown")) ∧
    ∃ pre c post, drain 5 profileAlphaUnknown.iterator = some (pre ++ c :: post) ∧
      (∀ x ∈ pre, validType Char.toLower x) ∧ ¬ validType Char.toLower c ∧
      c.Type_ = "Unknown" ∧
      [(⟨"TestAlpha", "test", ""⟩ : testFunc)] = pre.map (expectedFunction Char.toLower) ∧
      ([(⟨"TestAlpha", "test", ""⟩ : testFunc)] = [] ↔ pre = []) :=
  ⟨by decide, by decide,
    C10_functions_before_error.1 Char.toLower profileAlphaUnknown 5 _ _
      (by decide) (by decide)⟩

/-- Claim C11, as stated, fails: the actual name reported by a position-mismatch error need
not occur in the expected sequence. Actual `["TestB", "TestA"]` against expected
`["TestA", "TestC"]`, both duplicate-free, gives the position mismatch of `"TestB"` and
`"TestA"` at position 1, and `"TestB"` is not an expected name. -/
theorem C11_counterexample :
    checkTestCases ["TestB", "TestA"] [⟨"TestA", "test", ""⟩, ⟨"TestC", "test", ""⟩] =
      .fail (Error.positionMismatch "TestB" "TestA" 1) ∧
    "TestA" ∈ ["TestB", "TestA"] ∧
    ¬ "TestB" ∈ ([⟨"TestA", "test", ""⟩, ⟨"TestC", "test", ""⟩] : List testFunc).map
        testFunc.Name ∧
    (["TestB", "TestA"] : List String).Nodup := by
  decide

/-- Claim C11, amended. Whenever `checkTestCases` reports a position-mismatch error, the
reported expected name is the name of the expected sequence at the reported (1-based)
position and is present in the actual collection, and the reported actual name is the
name of the actual collection at that position and differs from it; all earlier
positions agree. -/
theorem C11_position_mismatch_names (casesInFile : List String)
    (casesInProfile : List testFunc) (a name : String) (pos : Nat)
    (h : checkTestCases casesInFile casesInProfile =
      .fail (Error.positionMismatch a name pos)) :
    name ∈ casesInFile ∧ name ∈ casesInProfile.map testFunc.Name ∧ a ∈ casesInFile ∧
      a ≠ name ∧ 1 ≤ pos ∧ casesInFile[pos - 1]? = some a ∧
      (casesInProfile[pos - 1]?).map testFunc.Name = some name ∧
      ∀ j, j < pos - 1 → casesInFile[j]? = (casesInProfile[j]?).map testFunc.Name := by
  obtain ⟨_, hwalk⟩ := checkTestCases_walk casesInFile casesInProfile _
    (by intro x y hxy; cases hxy) h
  obtain ⟨k, f, hpos, hk, hf, hname, hne, hmem, hagree⟩ :=
    checkLoop_positionMismatch casesInFile casesInProfile a name pos _ _ hwalk
  rw [Nat.zero_add] at hpos hf
  have hk1 : pos - 1 = k := by omega
  rw [hk1]
  refine ⟨hmem, ?_, List.getElem?_mem hk, hne, by omega, hk, ?_, ?_⟩
  · rw [← hname]; exact List.mem_map_of_mem _ (List.getElem?_mem hf)
  · rw [hf, Option.map_some', hname]
  · intro j hj
    have := hagree j hj
    rwa [Nat.zero_add] at this

theorem C11_position_mismatch_names_witness :
    checkTestCases ["TestB", "TestA"] [⟨"TestA", "test", ""⟩, ⟨"TestC", "test", ""⟩] =
      .fail (Error.positionMismatch "TestB" "TestA" 1) ∧
    ("TestA" ∈ ["TestB", "TestA"] ∧
      "TestA" ∈ ([⟨"TestA", "test", ""⟩, ⟨"TestC", "test", ""⟩] : List testFunc).map
        testFunc.Name ∧
      "TestB" ∈ ["TestB", "TestA"] ∧ "TestB" ≠ "TestA" ∧ 1 ≤ 1 ∧
      ["TestB", "TestA"][1 - 1]? = some "TestB" ∧
      (([⟨"TestA", "test", ""⟩, ⟨"TestC", "test", ""⟩] : List testFunc)[1 - 1]?).map
        testFunc.Name = some "TestA" ∧
      ∀ j, j < 1 - 1 → ["TestB", "TestA"][j]? =
        (([⟨"TestA", "test", ""⟩, ⟨"TestC", "test", ""⟩] : List testFunc)[j]?).map
          testFunc.Name) :=
  ⟨by decide,
    C11_position_mismatch_names ["TestB", "TestA"]
      [⟨"TestA", "test", ""⟩, ⟨"TestC", "test", ""⟩] "TestB" "TestA" 1 (by decide)⟩

/-- Claim C12, as stated, fails: the missing-case error carries the name only. The same
error is returned when the missing expected function stands at position 1 and when it
stands at position 2 of the expected sequence. -/
theorem C12_counterexample :
    checkTestCases ["TestA", "TestB"] [⟨"TestX", "test", ""⟩, ⟨"TestB", "test", ""⟩] =
      .fail (Error.missingCase "TestX") ∧
    checkTestCases ["TestA", "TestB"] [⟨"TestA", "test", ""⟩, ⟨"TestX", "test", ""⟩] =
      .fail (Error.missingCase "TestX") ∧
    ([⟨"TestX", "test", ""⟩, ⟨"TestB", "test", ""⟩] : List testFunc)[0]? =
      some ⟨"TestX", "test", ""⟩ ∧
    ([⟨"TestA", "test", ""⟩, ⟨"TestX", "test", ""⟩] : List testFunc)[1]? =
      some ⟨"TestX", "test", ""⟩ := by
  decide

/-- Claim C12, amended. The missing-case error returned by `checkTestCases` reports the
missing expected function name only: the sizes are equal, the name is the one of the
expected function at the first position where the walk stops (all earlier positions
agree), it is absent from the actual collection, and the error is determined by that name
alone, whatever the position. -/
theorem C12_missing_case_name_only (casesInFile : List String)
    (casesInProfile : List testFunc) (e : Error) (name : String)
    (h : checkTestCases casesInFile casesInProfile = .fail e)
    (hkind : e = Error.missingCase name) :
    casesInFile.length = casesInProfile.length ∧
    ∃ i f, i < casesInProfile.length ∧ casesInProfile[i]? = some f ∧
      e = Error.missingCase f.Name ∧ ¬ f.Name ∈ casesInFile ∧
      ∀ j, j < i → casesInFile[j]? = (casesInProfile[j]?).map testFunc.Name := by
  subst hkind
  obtain ⟨hlen, hwalk⟩ := checkTestCases_walk casesInFile casesInProfile _
    (by intro x y hxy; cases hxy) h
  obtain ⟨k, f, hk, hf, hname, hmem, hagree⟩ :=
    checkLoop_missingCase_at casesInFile casesInProfile name _ _ hwalk
  rw [Nat.zero_add] at hf
  refine ⟨hlen, k, f, by omega, hf, by rw [hname], by rw [hname]; exact hmem, ?_⟩
  intro j hj
  have := hagree j hj
  rwa [Nat.zero_add] at this

theorem C12_missing_case_name_only_witness :
    checkTestCases ["TestA", "TestB"] [⟨"TestA", "test", ""⟩, ⟨"TestX", "test", ""⟩] =
      .fail (Error.missingCase "TestX") ∧
    Error.missingCase "TestX" = Error.missingCase "TestX" ∧
    (["TestA", "TestB"] : List String).length =
      ([⟨"TestA", "test", ""⟩, ⟨"TestX", "test", ""⟩] : List testFunc).length ∧
    ∃ i f, i < ([⟨"TestA", "test", ""⟩, ⟨"TestX", "test", ""⟩] : List testFunc).length ∧
      ([⟨"TestA", "test", ""⟩, ⟨"TestX", "test", ""⟩] : List testFunc)[i]? = some f ∧
      Error.missingCase "TestX" = Error.missingCase f.Name ∧
      ¬ f.Name ∈ ["TestA", "TestB"] ∧
      ∀ j, j < i → ["TestA", "TestB"][j]? =
        (([⟨"TestA", "test", ""⟩, ⟨"TestX", "test", ""⟩] : List testFunc)[j]?).map
          testFunc.Name :=
  ⟨by decide, rfl,
    C12_missing_case_name_only ["TestA", "TestB"]
      [⟨"TestA", "test", ""⟩, ⟨"TestX", "test", ""⟩] _ "TestX" (by decide) rfl⟩

/-- Claim C13. For every profile with empty top-level cases and empty categories,
`generateTestFunctions` (with fuel for one call of `next`) returns the empty sequence
with no error; `checkTestCases` of the empty actual collection against that sequence
succeeds, and of any non-empty actual collection fails with the count-mismatch error
carrying the actual size and 0. -/
theorem C13_empty_profile (lower : Char → Char) (utp : utProfile) (fuel : Nat)
    (hcases : utp.Cases = []) (hcategories : utp.Categories = []) (hfuel : 1 ≤ fuel) :
    ∃ fs, generateTestFunctions lower fuel utp = some (fs, none) ∧ fs = [] ∧
      checkTestCases [] fs = .ok ∧
      ∀ casesInFile : List String, casesInFile ≠ [] →
        checkTestCases casesInFile fs =
          .fail (Error.countMismatch casesInFile.length 0) := by
  have hflat : flat utp.Cases utp.Categories = [] := by
    rw [hcases, hcategories]; rfl
  have hbound : fuelBound utp ≤ fuel := by
    rw [fuelBound, hflat, hcategories]; exact hfuel
  refine ⟨[], ?_, rfl, rfl, ?_⟩
  · rw [generate_all_valid lower utp fuel hbound (by rw [hflat]; intro tc htc; cases htc),
      hflat]
    rfl
  · intro casesInFile hne
    unfold checkTestCases
    rw [if_pos]
    · rfl
    · intro hlen
      exact hne (List.length_eq_zero.1 hlen)

theorem C13_empty_profile_witness :
    (utProfile.mk "demo.go" "demo_test.go" "" [] []).Cases = [] ∧
    (utProfile.mk "demo.go" "demo_test.go" "" [] []).Categories = [] ∧ 1 ≤ 1 ∧
    ∃ fs, generateTestFunctions Char.toLower 1 (utProfile.mk "demo.go" "demo_test.go" "" [] [])
        = some (fs, none) ∧ fs = [] ∧
      checkTestCases [] fs = .ok ∧
      ∀ casesInFile : List String, casesInFile ≠ [] →
        checkTestCases casesInFile fs =
          .fail (Error.countMismatch casesInFile.length 0) :=
  ⟨rfl, rfl, le_refl 1,
    C13_empty_profile Char.toLower (utProfile.mk "demo.go" "demo_test.go" "" [] []) 1
      rfl rfl (le_refl 1)⟩

/-- Claim C14. `ValidateDir`, over a directory listing that could be read and a per-file
validation outcome, stops at the first profile file whose validation fails: the returned
slice is exactly the paths of the profile files that precede the first failing one in
listing order, all of which passed, and the error is the one of that first failure
(wrapped by the walking error when `recursive` is true), so it is non-nil if and only if
some profile file fails; when none fails the slice holds every profile file of the listing
and the error is nil. For a file tree, the listing is the entries of the directory when
`recursive` is false and all its descendants when it is true. -/
theorem C14_validate_dir_stops_at_first_failure {ε : Type} (join : String → String → String)
    (validate : String → Option ε) (dir : String) :
    (∀ (readDir : String → Except ε (List FileInfo)) (walk : String → List (WalkVisit ε))
      (fileInfos : List FileInfo), readDir dir = .ok fileInfos →
      ValidateDir join validate readDir walk dir false =
        (passedBefore validate (listedProfiles join dir fileInfos),
          (firstFailure validate (listedProfiles join dir fileInfos)).map
            DirError.validation)) ∧
    (∀ (readDir : String → Except ε (List FileInfo)) (walk : String → List (WalkVisit ε))
      (entries : List (String × FileInfo)),
      walk dir = entries.map (fun e => WalkVisit.entry e.1 e.2) →
      ValidateDir join validate readDir walk dir true =
        (passedBefore validate (walkedProfiles entries),
          (firstFailure validate (walkedProfiles entries)).map
            (fun err => DirError.walking dir (DirError.validation err)))) ∧
    (∀ profiles : List String, ∃ rest,
      profiles = passedBefore validate profiles ++ rest ∧
      (∀ p ∈ passedBefore validate profiles, validate p = none) ∧
      ((rest = [] ∧ firstFailure validate profiles = none) ∨
        ∃ p tl err, rest = p :: tl ∧ validate p = some err ∧
          firstFailure validate profiles = some err) ∧
      (firstFailure validate profiles ≠ none ↔ ∃ p ∈ profiles, validate p ≠ none) ∧
      ((∀ p ∈ profiles, validate p = none) →
        passedBefore validate profiles = profiles ∧
          firstFailure validate profiles = none)) ∧
    (∀ (name : String) (children : List FsNode),
      ValidateDir join validate (readDirOf children) (walkOf join (.dir name children))
          dir false =
        (passedBefore validate (listedProfiles join dir (children.map FsNode.info)),
          (firstFailure validate (listedProfiles join dir (children.map FsNode.info))).map
            DirError.validation) ∧
      ValidateDir join validate (readDirOf children) (walkOf join (.dir name children))
          dir true =
        (passedBefore validate (walkedProfiles (childEntries join dir children)),
          (firstFailure validate (walkedProfiles (childEntries join dir children))).map
            (fun err => DirError.walking dir (DirError.validation err)))) := by
  refine ⟨?_, ?_, ?_, ?_⟩
  · intro readDir walk fileInfos h
    exact ValidateDir_listing join validate readDir walk dir fileInfos h
  · intro readDir walk entries h
    exact ValidateDir_walk join validate readDir walk dir entries h
  · intro profiles
    obtain ⟨rest, h1, h2, h3⟩ := passedBefore_split validate profiles
    exact ⟨rest, h1, h2, h3, firstFailure_ne_none_iff validate profiles,
      passedBefore_all validate profiles⟩
  · intro name children
    constructor
    · exact ValidateDir_listing join validate _ _ dir _ rfl
    · rw [ValidateDir_walk join validate (readDirOf children)
        (walkOf join (.dir name children)) dir (treeEntries join dir (.dir name children)) rfl]
      show (passedBefore validate (walkedProfiles (treeEntries join dir (.dir name children))),
        (firstFailure validate
          (walkedProfiles (treeEntries join dir (.dir name children)))).map _) = _
      rw [walkedProfiles_dir]

theorem C14_validate_dir_stops_at_first_failure_witness :
    ValidateDir joinSlash failsDemo2 (readDirOf testdataEntries)
        (walkOf joinSlash (.dir "testdata" testdataEntries)) "testdata" true =
      (["testdata/demo1_utprofile.yml"],
        some (DirError.walking "testdata" (DirError.validation "mismatch"))) ∧
    ValidateDir joinSlash failsDemo2 (readDirOf testdataEntries)
        (walkOf joinSlash (.dir "testdata" testdataEntries)) "testdata" false =
      (["testdata/demo1_utprofile.yml"], some (DirError.validation "mismatch")) ∧
    (ValidateDir joinSlash passesAll (readDirOf testdataEntries)
        (walkOf joinSlash (.dir "testdata" testdataEntries)) "testdata" false).1.length = 2 ∧
    (ValidateDir joinSlash passesAll (readDirOf testdataEntries)
        (walkOf joinSlash (.dir "testdata" testdataEntries)) "testdata" true).1.length = 3 ∧
    (readDirOf testdataEntries : String → Except String (List FileInfo)) "testdata" =
      .ok (testdataEntries.map FsNode.info) ∧
    ValidateDir joinSlash passesAll (readDirOf testdataEntries) (fun _ => []) "testdata" false =
      (passedBefore passesAll
          (listedProfiles joinSlash "testdata" (testdataEntries.map FsNode.info)),
        (firstFailure passesAll
          (listedProfiles joinSlash "testdata" (testdataEntries.map FsNode.info))).map
            DirError.validation) ∧
    ValidateDir joinSlash passesAll (readDirOf testdataEntries)
        (walkOf joinSlash (.file "solo_utprofile.yml")) "solo_utprofile.yml" true =
      (passedBefore passesAll
          (walkedProfiles (treeEntries joinSlash "solo_utprofile.yml"
            (.file "solo_utprofile.yml"))),
        (firstFailure passesAll
          (walkedProfiles (treeEntries joinSlash "solo_utprofile.yml"
            (.file "solo_utprofile.yml")))).map
            (fun err => DirError.walking "solo_utprofile.yml" (DirError.validation err))) := by
  have hfail := (C14_validate_dir_stops_at_first_failure joinSlash failsDemo2
    "testdata").2.2.2 "testdata" testdataEntries
  have hpass := (C14_validate_dir_stops_at_first_failure joinSlash passesAll
    "testdata").2.2.2 "testdata" testdataEntries
  refine ⟨?_, ?_, ?_, ?_, rfl, ?_, ?_⟩
  · rw [hfail.2]; decide
  · rw [hfail.1]; decide
  · rw [hpass.1]; decide
  · rw [hpass.2]; decide
  · exact (C14_validate_dir_stops_at_first_failure joinSlash passesAll "testdata").1
      (readDirOf testdataEntries) (fun _ => []) (testdataEntries.map FsNode.info) rfl
  · exact (C14_validate_dir_stops_at_first_failure joinSlash passesAll
      "solo_utprofile.yml").2.1 (readDirOf testdataEntries)
      (walkOf joinSlash (.file "solo_utprofile.yml"))
      (treeEntries joinSlash "solo_utprofile.yml" (.file "solo_utprofile.yml")) rfl

/-- Claim C15. The flattened sequence is finite. Every call of `next` returns once its
fuel covers the category nodes on the stack, and leaves no more of them there; each
iteration of the pop loop strictly decreases their number. From `utp.iterator()`, the
first `N` calls succeed and call `N + 1` returns the not-found error, where `N` is the
total number of cases of the top level and of all categories of the tree, which is also
the length of the sequence drained from the iterator. -/
theorem C15_finite_sequence :
    (∀ (fuel : Nat) (it : iterator), nodesCategories it.Stacks ≤ fuel →
      ∃ r it', it.next fuel = some (r, it') ∧
        nodesCategories it'.Stacks ≤ nodesCategories it.Stacks) ∧
    (∀ (c : testCategory) (rest : List testCategory),
      nodesCategories (pushReversed c.Categories rest) < nodesCategories (c :: rest)) ∧
    (∀ (utp : utProfile) (fuel : Nat), nodesCategories utp.Categories ≤ fuel →
      ∃ (cs : List testCase) (it' : iterator), cs.length = totalCases utp ∧
        nextCalls fuel (totalCases utp + 1) utp.iterator =
          some (cs.map .ok ++ [.error Error.notFound], it')) ∧
    (∀ (utp : utProfile) (fuel : Nat), fuelBound utp ≤ fuel →
      ∃ cs, drain fuel utp.iterator = some cs ∧ cs.length = totalCases utp) := by
  refine ⟨next_returns, nodes_pop_lt, ?_, ?_⟩
  · intro utp fuel hfuel
    obtain ⟨it', h⟩ := nextCalls_spec fuel (flat utp.Cases utp.Categories) utp.iterator
      (remaining_iterator utp) (by rw [nodes_iterator]; exact hfuel)
    rw [length_flat] at h
    exact ⟨_, it', length_flat utp, h⟩
  · intro utp fuel hfuel
    exact ⟨_, drain_iterator utp fuel hfuel, length_flat utp⟩

theorem C15_finite_sequence_witness :
    nodesCategories profileNested.Categories ≤ 5 ∧ totalCases profileNested = 5 ∧
    (∃ (cs : List testCase) (it' : iterator), cs.length = totalCases profileNested ∧
      nextCalls 5 (totalCases profileNested + 1) profileNested.iterator =
        some (cs.map .ok ++ [.error Error.notFound], it')) ∧
    nodesCategories (pushReversed categoryA.Categories [categoryB]) <
      nodesCategories [categoryA, categoryB] ∧
    nodesCategories profileNested.iterator.Stacks ≤ 5 ∧
    (∃ r it', profileNested.iterator.next 5 = some (r, it') ∧
      nodesCategories it'.Stacks ≤ nodesCategories profileNested.iterator.Stacks) ∧
    fuelBound profileNested ≤ 12 ∧
    (∃ cs, drain 12 profileNested.iterator = some cs ∧
      cs.length = totalCases profileNested) :=
  ⟨by decide, by decide, C15_finite_sequence.2.2.1 profileNested 5 (by decide),
    C15_finite_sequence.2.1 categoryA [categoryB], by decide,
    C15_finite_sequence.1 5 profileNested.iterator (by decide), by decide,
    C15_finite_sequence.2.2.2 profileNested 12 (by decide)⟩

/-- Claim C16. Exhaustion is permanent: when a call of `next`, on any iterator and with
any fuel, returns an error, the error is the not-found error, the stack is empty and the
cursor is at or past the end of the current list; every later call, with any fuel,
returns the not-found error again and leaves `Index`, `Cases` and `Stacks` unchanged, so
no case is ever yielded after exhaustion was reported. -/
theorem C16_exhaustion_permanent (fuel : Nat) (it it' : iterator) (e : Error)
    (h : it.next fuel = some (.error e, it')) :
    e = Error.notFound ∧ it'.Stacks = [] ∧ it'.Cases.length ≤ it'.Index ∧
    (∀ fuel', it'.next fuel' = some (.error Error.notFound, it')) ∧
    (∀ fuel' k, nextCalls fuel' k it' =
      some (List.replicate k (.error Error.notFound), it')) := by
  obtain ⟨he, hit, hle⟩ := next_error fuel it it' e h
  subst hit
  exact ⟨he, rfl, hle, fun fuel' => next_exhausted fuel' it.Index it.Cases hle,
    fun fuel' k => nextCalls_exhausted fuel' it.Index it.Cases hle k⟩

theorem C16_exhaustion_permanent_witness :
    iterator.next 2 ⟨1, [⟨"Alpha", "", ""⟩], [.mk "Hollow" "" [] [.mk "Deep" "" [] []]]⟩ =
      some (.error Error.notFound, ⟨1, [⟨"Alpha", "", ""⟩], []⟩) ∧
    (Error.notFound = Error.notFound ∧
      (iterator.mk 1 [⟨"Alpha", "", ""⟩] []).Stacks = [] ∧
      (iterator.mk 1 [⟨"Alpha", "", ""⟩] []).Cases.length ≤
        (iterator.mk 1 [⟨"Alpha", "", ""⟩] []).Index ∧
      (∀ fuel', (iterator.mk 1 [⟨"Alpha", "", ""⟩] []).next fuel' =
        some (.error Error.notFound, iterator.mk 1 [⟨"Alpha", "", ""⟩] [])) ∧
      (∀ fuel' k, nextCalls fuel' k (iterator.mk 1 [⟨"Alpha", "", ""⟩] []) =
        some (List.replicate k (.error Error.notFound),
          iterator.mk 1 [⟨"Alpha", "", ""⟩] []))) :=
  ⟨rfl,
    C16_exhaustion_permanent 2
      ⟨1, [⟨"Alpha", "", ""⟩], [.mk "Hollow" "" [] [.mk "Deep" "" [] []]]⟩
      ⟨1, [⟨"Alpha", "", ""⟩], []⟩ Error.notFound rfl⟩

/-- Claim C17. In `checkTestCases` the index into the expected sequence is always in
bounds: no run ends in an out-of-range access of `casesInProfile[index]`, the walk being
reached only with equal sizes and every walk over at most as many keys as the profile has
positions left staying in bounds; with both sequences empty the result is success. The
size check is what protects the access: the walk alone, over one key and an empty
profile, goes out of range. -/
theorem C17_index_in_bounds :
    (∀ (casesInFile : List String) (casesInProfile : List testFunc),
      checkTestCases casesInFile casesInProfile ≠ .indexOutOfRange) ∧
    (∀ (casesInFile : List String) (casesInProfile : List testFunc) (rem : List String)
      (index : Nat), rem.length + index ≤ casesInProfile.length →
      checkLoop casesInFile casesInProfile rem index ≠ .indexOutOfRange) ∧
    checkTestCases [] [] = .ok ∧
    checkLoop ["TestAlpha"] [] ["TestAlpha"] 0 = .indexOutOfRange := by
  refine ⟨?_, checkLoop_in_bounds, by decide, by decide⟩
  intro casesInFile casesInProfile h
  unfold checkTestCases at h
  by_cases hlen : casesInFile.length = casesInProfile.length
  · rw [if_neg (not_not.2 hlen)] at h
    exact checkLoop_in_bounds casesInFile casesInProfile casesInFile 0 (by omega) h
  · rw [if_pos hlen] at h; cases h

theorem C17_index_in_bounds_witness :
    (["TestAlpha"] : List String).length + 1 ≤
      ([⟨"TestAlpha", "test", ""⟩, ⟨"BenchmarkBeta", "benchmark", ""⟩] : List testFunc).length ∧
    checkLoop ["TestAlpha"] [⟨"TestAlpha", "test", ""⟩, ⟨"BenchmarkBeta", "benchmark", ""⟩]
      ["TestAlpha"] 1 ≠ .indexOutOfRange :=
  ⟨by decide,
    C17_index_in_bounds.2.1 ["TestAlpha"]
      [⟨"TestAlpha", "test", ""⟩, ⟨"BenchmarkBeta", "benchmark", ""⟩] ["TestAlpha"] 1
      (by decide)⟩

/-- Claim C18. `isValidProfile` accepts a directory entry if and only if it is not a
directory and its name ends with `_utprofile.yml` or `_utprofile.yaml`. Every other entry
is skipped by `ValidateDir`, in both modes: it is not validated (the result does not
change when the validation outcome changes on paths other than those of the accepted
entries) and it causes no error (the result is the one of the listing without it). -/
theorem C18_only_profiles_are_validated :
    (∀ info : FileInfo, isValidProfile info = true ↔
      info.IsDir = false ∧
        ((∃ stem : String, info.Name = stem ++ "_utprofile.yml") ∨
          ∃ stem : String, info.Name = stem ++ "_utprofile.yaml")) ∧
    (∀ (ε : Type) (join : String → String → String) (validate validate' : String → Option ε)
      (readDir : String → Except ε (List FileInfo)) (walk : String → List (WalkVisit ε))
      (dir : String) (fileInfos : List FileInfo), readDir dir = .ok fileInfos →
      (∀ info ∈ fileInfos, isValidProfile info = true →
        validate (join dir info.Name) = validate' (join dir info.Name)) →
      ValidateDir join validate readDir walk dir false =
        ValidateDir join validate' readDir walk dir false) ∧
    (∀ (ε : Type) (join : String → String → String) (validate : String → Option ε)
      (readDir readDir' : String → Except ε (List FileInfo))
      (walk : String → List (WalkVisit ε)) (dir : String) (before after : List FileInfo)
      (info : FileInfo), isValidProfile info = false →
      readDir dir = .ok (before ++ info :: after) → readDir' dir = .ok (before ++ after) →
      ValidateDir join validate readDir walk dir false =
        ValidateDir join validate readDir' walk dir false) ∧
    (∀ (ε : Type) (join : String → String → String) (validate validate' : String → Option ε)
      (readDir : String → Except ε (List FileInfo)) (walk : String → List (WalkVisit ε))
      (dir : String) (entries : List (String × FileInfo)),
      walk dir = entries.map (fun e => WalkVisit.entry e.1 e.2) →
      (∀ e ∈ entries, isValidProfile e.2 = true → validate e.1 = validate' e.1) →
      ValidateDir join validate readDir walk dir true =
        ValidateDir join validate' readDir walk dir true) ∧
    (∀ (ε : Type) (join : String → String → String) (validate : String → Option ε)
      (readDir : String → Except ε (List FileInfo)) (walk walk' : String → List (WalkVisit ε))
      (dir : String) (before after : List (String × FileInfo)) (e : String × FileInfo),
      isValidProfile e.2 = false →
      walk dir = (before ++ e :: after).map (fun e => WalkVisit.entry e.1 e.2) →
      walk' dir = (before ++ after).map (fun e => WalkVisit.entry e.1 e.2) →
      ValidateDir join validate readDir walk dir true =
        ValidateDir join validate readDir walk' dir true) := by
  refine ⟨isValidProfile_iff, ?_, ?_, ?_, ?_⟩
  · intro ε join validate validate' readDir walk dir fileInfos hread hagree
    rw [ValidateDir_listing join validate readDir walk dir fileInfos hread,
      ValidateDir_listing join validate' readDir walk dir fileInfos hread]
    obtain ⟨h1, h2⟩ := passedBefore_congr validate validate'
      ((fileInfos.filter isValidProfile).map (fun info => join dir info.Name)) (by
        intro p hp
        obtain ⟨info, hinfo, rfl⟩ := List.mem_map.1 hp
        obtain ⟨hmem, hvalid⟩ := List.mem_filter.1 hinfo
        exact hagree info hmem hvalid)
    rw [h1, h2]
  · intro ε join validate readDir readDir' walk dir before after info hskip hread hread'
    rw [ValidateDir_listing join validate readDir walk dir _ hread,
      ValidateDir_listing join validate readDir' walk dir _ hread']
    have := listedProfiles_skip join dir before after info hskip
    unfold listedProfiles at this
    rw [this]
  · intro ε join validate validate' readDir walk dir entries hwalk hagree
    rw [ValidateDir_walk join validate readDir walk dir entries hwalk,
      ValidateDir_walk join validate' readDir walk dir entries hwalk]
    obtain ⟨h1, h2⟩ := passedBefore_congr validate validate'
      ((entries.filter (fun e => isValidProfile e.2)).map (fun e => e.1)) (by
        intro p hp
        obtain ⟨e, he, rfl⟩ := List.mem_map.1 hp
        obtain ⟨hmem, hvalid⟩ := List.mem_filter.1 he
        exact hagree e hmem hvalid)
    rw [h1, h2]
  · intro ε join validate readDir walk walk' dir before after e hskip hwalk hwalk'
    rw [ValidateDir_walk join validate readDir walk dir _ hwalk,
      ValidateDir_walk join validate readDir walk' dir _ hwalk']
    have := walkedProfiles_skip before after e hskip
    unfold walkedProfiles at this
    rw [this]

theorem C18_only_profiles_are_validated_witness :
    isValidProfile ⟨"utprofile.yml", false⟩ = false ∧
    (readDirOf [.file "a_utprofile.yml", .file "utprofile.yml", .file "b_utprofile.yaml"] :
        String → Except String (List FileInfo)) "testdata" =
      .ok ([⟨"a_utprofile.yml", false⟩] ++ ⟨"utprofile.yml", false⟩ ::
        [⟨"b_utprofile.yaml", false⟩]) ∧
    (readDirOf [.file "a_utprofile.yml", .file "b_utprofile.yaml"] :
        String → Except String (List FileInfo)) "testdata" =
      .ok ([⟨"a_utprofile.yml", false⟩] ++ [⟨"b_utprofile.yaml", false⟩]) ∧
    ValidateDir joinSlash passesAll
        (readDirOf [.file "a_utprofile.yml", .file "utprofile.yml", .file "b_utprofile.yaml"])
        (fun _ => []) "testdata" false =
      ValidateDir joinSlash passesAll
        (readDirOf [.file "a_utprofile.yml", .file "b_utprofile.yaml"])
        (fun _ => []) "testdata" false ∧
    (isValidProfile ⟨"a_utprofile.yml", false⟩ = true ↔
      (⟨"a_utprofile.yml", false⟩ : FileInfo).IsDir = false ∧
        ((∃ stem : String,
            (⟨"a_utprofile.yml", false⟩ : FileInfo).Name = stem ++ "_utprofile.yml") ∨
          ∃ stem : String,
            (⟨"a_utprofile.yml", false⟩ : FileInfo).Name = stem ++ "_utprofile.yaml")) :=
  ⟨by decide, rfl, rfl,
    C18_only_profiles_are_validated.2.2.1 String joinSlash passesAll _ _ (fun _ => [])
      "testdata" [⟨"a_utprofile.yml", false⟩] [⟨"b_utprofile.yaml", false⟩]
      ⟨"utprofile.yml", false⟩ (by decide) rfl rfl,
    C18_only_profiles_are_validated.1 ⟨"a_utprofile.yml", false⟩⟩

end Goutprofile
